import Mathlib

/-!
# image-reflector-controller: tag store and tag selection policies

A shallow embedding of

* `internal/policy/alphabetical.go`  (`NewAlphabetical`, `Alphabetical.Latest`),
* `internal/policy/filter.go`        (`RegexFilter.Apply`, `Items`, `GetOriginalTag`),
* `internal/database/badger/badger.go` (`Tags`, `SetTags`, `keyForRepo`, `getOrEmpty`,
  `marshal`, `unmarshal`),

and of the Numerical and SemVer policies as §4.3 of the spec describes them (their
sources are not among the files), followed by the properties proved about them.

Conventions of the embedding

* A Go `string` is a finite sequence of bytes; `<` on Go strings is the byte-wise
  lexicographic order, which is the order Mathlib puts on `List (Fin 256)`.
* A Go `error` is a value of `GoError`; a function returning `(T, error)` returns a
  `Result T`, which also has an outcome for a run-time panic (index out of range).
* A Go `map[string]T` is an association list with pairwise distinct keys.  Go leaves
  the iteration order of a map unspecified, so a `range` over a map is modelled by
  *every* permutation of the entries.
* The Go libraries the code calls (`regexp`, `encoding/json`, `badger`, `sort`) are
  not part of the repository.  `regexp` and `encoding/json` are taken as parameters
  (`Regexp`, `JSON`); `sort.Sort` is the function computing the ordered rearrangement
  of its argument, and a badger database is a finite map from keys to values.
* Where a property of the store depends on what `encoding/json` does with a string
  (it coerces strings to valid UTF-8), the parameter `JSON` is instantiated with
  `goJSON`, a model of `json.Marshal` and `json.Unmarshal` on the records of the store.
-/

namespace ImageReflector

/-! ## Go values -/

/-- A Go string: a sequence of bytes. -/
abbrev GoString := List (Fin 256)

/-- The Go string literal with the given (ASCII) text. -/
def str (s : String) : GoString := s.toList.map (fun c => Fin.ofNat c.toNat)

/-- A Go `error` value: `new` is an error carrying a message only (`errors.New`,
`fmt.Errorf` without `%w`), `wrap` is an error built by `fmt.Errorf` with a `%w`
verb, which carries a message and the wrapped error. -/
inductive GoError where
  | new (msg : GoString)
  | wrap (msg : GoString) (inner : GoError)
deriving DecidableEq, Repr

/-- The method `Error()`: the message of an error. -/
def GoError.Error : GoError → GoString
  | .new msg => msg
  | .wrap msg _ => msg

/-- The method `Unwrap()`: the error wrapped with `%w`, if any. -/
def GoError.Unwrap : GoError → Option GoError
  | .new _ => none
  | .wrap _ inner => some inner

/-- The outcome of a Go function returning `(T, error)`: a value and a nil error,
a nil value and an error, or a run-time panic. -/
inductive Result (α : Type) where
  | ok (v : α)
  | error (e : GoError)
  | panic
deriving DecidableEq, Repr

/-- Equality of the outcomes of a library call is decidable. -/
instance instDecidableEqExcept {ε α : Type} [DecidableEq ε] [DecidableEq α] :
    DecidableEq (Except ε α)
  | .ok a, .ok b => if h : a = b then isTrue (h ▸ rfl) else isFalse (fun h' => h (by cases h'; rfl))
  | .error a, .error b =>
    if h : a = b then isTrue (h ▸ rfl) else isFalse (fun h' => h (by cases h'; rfl))
  | .ok _, .error _ => isFalse (fun h => by cases h)
  | .error _, .ok _ => isFalse (fun h => by cases h)

/-- Modelled from the spec: the type `database.Tag`, declared in
`internal/database`, which is not among the sources.  The spec (§3) gives it as
`{Name: string, Digest: string}`, and these are the two fields the code reads and
writes. -/
structure Tag where
  Name : GoString
  Digest : GoString
deriving DecidableEq, Repr

/-- The zero value of `database.Tag`. -/
def Tag.zero : Tag := ⟨[], []⟩

/-! ## Go maps keyed by strings -/

/-- A Go `map[string]T`, as an association list. -/
abbrev GoMap (β : Type) := List (GoString × β)

/-- The statement `m[k] = v`. -/
def GoMap.set {β : Type} (m : GoMap β) (k : GoString) (v : β) : GoMap β :=
  (k, v) :: m.filter (fun e => decide (e.1 ≠ k))

/-- The two-valued lookup `v, ok := m[k]`. -/
def GoMap.lookup {β : Type} (m : GoMap β) (k : GoString) : Option β :=
  (m.find? (fun e => decide (e.1 = k))).map Prod.snd

/-- The expression `m[k]` on a `map[string]Tag`: the zero value when `k` is absent. -/
def GoMap.get (m : GoMap Tag) (k : GoString) : Tag :=
  (GoMap.lookup m k).getD Tag.zero

/-- The last element of a list satisfying a test. -/
def findLast (q : Tag → Bool) (l : List Tag) : Option Tag :=
  l.reverse.find? q

/-! ## `sort` -/

/-- The call `sort.Sort(x)` on a `sort.StringSlice`, whose `Less(i, j)` is
`x[i] < x[j]`: the rearrangement of `x` in non-decreasing order. -/
def StringSlice.Sort (x : List GoString) : List GoString :=
  x.insertionSort (fun a b => a ≤ b)

/-- The call `sort.Sort(sort.Reverse(x))`, whose `Less(i, j)` is `x[j] < x[i]`: the
rearrangement of `x` in non-increasing order. -/
def StringSlice.SortReverse (x : List GoString) : List GoString :=
  x.insertionSort (fun a b => b ≤ a)

/-! ## `internal/policy/alphabetical.go` -/

/-- The constant `AlphabeticalOrderAsc`. -/
def AlphabeticalOrderAsc : GoString := str "ASC"

/-- The constant `AlphabeticalOrderDesc`. -/
def AlphabeticalOrderDesc : GoString := str "DESC"

/-- The struct `Alphabetical`. -/
structure Alphabetical where
  Order : GoString
deriving DecidableEq, Repr

/-- The slice `tagNames` after the loop of `Latest`: `tagNames[idx] = name.Name`. -/
def Alphabetical.tagNames (versions : List Tag) : List GoString :=
  versions.map (fun name => name.Name)

/-- The map `tagsByName` after the loop of `Latest`:
`tagsByName[name.Name] = name` for each element in turn. -/
def Alphabetical.tagsByName (versions : List Tag) : GoMap Tag :=
  versions.foldl (fun m name => GoMap.set m name.Name name) []

/-- The slice `sorted` after the sort of `Latest`. -/
def Alphabetical.sorted (p : Alphabetical) (versions : List Tag) : List GoString :=
  if p.Order = AlphabeticalOrderDesc then
    StringSlice.Sort (Alphabetical.tagNames versions)
  else
    StringSlice.SortReverse (Alphabetical.tagNames versions)

/-- The method `(*Alphabetical).Latest`. -/
def Alphabetical.Latest (p : Alphabetical) (versions : List Tag) : Result Tag :=
  if versions.length = 0 then
    .error (.new (str "version list argument cannot be empty"))
  else
    match Alphabetical.sorted p versions with
    | [] => .panic
    | first :: _ => .ok (GoMap.get (Alphabetical.tagsByName versions) first)

/-- The function `NewAlphabetical`. -/
def NewAlphabetical (order : GoString) : Result Alphabetical :=
  if order = str "" then
    .ok { Order := AlphabeticalOrderAsc }
  else if order = AlphabeticalOrderAsc ∨ order = AlphabeticalOrderDesc then
    .ok { Order := order }
  else
    .error (.new (str "invalid order argument provided: '" ++ order ++
      str "', must be one of: " ++ AlphabeticalOrderAsc ++ str ", " ++
      AlphabeticalOrderDesc))

/-! ## `internal/policy/filter.go` -/

/-- A compiled regular expression (`*regexp.Regexp` of Go's `regexp` package), given
by the two methods the filter calls.  `FindStringSubmatchIndex s` is the slice of
index pairs of the leftmost match and its groups, empty (nil) when `s` does not
match; `ExpandString dst template src match` appends the expansion of `template`
to `dst`. -/
structure Regexp where
  FindStringSubmatchIndex : GoString → List Int
  ExpandString : List (Fin 256) → GoString → GoString → List Int → List (Fin 256)

/-- The struct `RegexFilter`. -/
structure RegexFilter where
  filtered : GoMap Tag
  Regexp : Regexp
  Replace : GoString

/-- The test of the `if` in the loop of `Apply`: `len(submatches) > 0`, that is,
the name matches the pattern. -/
def RegexFilter.isMatch (f : RegexFilter) (name : GoString) : Bool :=
  decide ((f.Regexp.FindStringSubmatchIndex name).length > 0)

/-- The value of the variable `tag` in the loop of `Apply`, the output name of a
matching item: the name itself when `Replace` is empty, and the template `Replace`
expanded against the match otherwise. -/
def RegexFilter.outputName (f : RegexFilter) (name : GoString) : GoString :=
  if f.Replace ≠ str "" then
    f.Regexp.ExpandString [] f.Replace name (f.Regexp.FindStringSubmatchIndex name)
  else
    name

/-- One iteration of the loop of `Apply` on the map `f.filtered`. -/
def RegexFilter.applyStep (f : RegexFilter) (filtered : GoMap Tag) (item : Tag) :
    GoMap Tag :=
  if RegexFilter.isMatch f item.Name then
    GoMap.set filtered (RegexFilter.outputName f item.Name)
      { Name := item.Name, Digest := item.Digest }
  else
    filtered

/-- The method `(*RegexFilter).Apply`: the filter after the call. -/
def RegexFilter.Apply (f : RegexFilter) (list : List Tag) : RegexFilter :=
  { f with filtered := list.foldl (RegexFilter.applyStep f) [] }

/-- The method `(*RegexFilter).Items`, with the map ranged over in the order of the
association list. -/
def RegexFilter.Items (f : RegexFilter) : List Tag :=
  f.filtered.map (fun e => { e.2 with Name := e.1 })

/-- The slices a call of `Items()` can return: Go ranges over the map in an
unspecified order, so every rearrangement of `f.Items` is possible. -/
def RegexFilter.ItemsIn (f : RegexFilter) (items : List Tag) : Prop :=
  items.Perm (RegexFilter.Items f)

/-- The method `(*RegexFilter).GetOriginalTag`. -/
def RegexFilter.GetOriginalTag (f : RegexFilter) (tag : GoString) : Tag :=
  GoMap.get f.filtered tag

/-- The output names of the matching items of a list, one per matching item, in the
order of the list: the keys that the loop of `Apply` writes. -/
def RegexFilter.outputNames (f : RegexFilter) (list : List Tag) : List GoString :=
  (list.filter (fun u => RegexFilter.isMatch f u.Name)).map
    (fun u => RegexFilter.outputName f u.Name)

/-! ### Two regular expressions for the examples

The patterns of `TestRegexFilter`. -/

/-- Whether a byte is an ASCII digit (the class `\d`). -/
def isDigit (c : Fin 256) : Bool := decide (48 ≤ c.val ∧ c.val ≤ 57)

/-- The pattern `^ver`: a match is the first three bytes of a name starting with
`ver`.  The pattern has no group, so a template is expanded to itself when it has no
`$`; templates with a `$` are not used with it. -/
def verRegexp : Regexp where
  FindStringSubmatchIndex := fun s => if (str "ver").isPrefixOf s then [0, 3] else []
  ExpandString := fun dst template _ _ => dst ++ template

/-- The leftmost match of `ver(\d+)` in `s`, the bytes before `s` being `pos` many:
the indices of the match and of its group. -/
def verDigitsFind : GoString → Nat → List Int
  | [], _ => []
  | c :: s, pos =>
    if (str "ver").isPrefixOf (c :: s) ∧ ((c :: s).drop 3).head?.any isDigit then
      let n := (((c :: s).drop 3).takeWhile isDigit).length
      [(pos : Int), ((pos + 3 + n : Nat) : Int), ((pos + 3 : Nat) : Int),
        ((pos + 3 + n : Nat) : Int)]
    else
      verDigitsFind s (pos + 1)

/-- The pattern `ver(\d+)`.  Of the templates only `$1` is expanded (to the text of
the group); any other template is appended as it is. -/
def verDigitsRegexp : Regexp where
  FindStringSubmatchIndex := fun s => verDigitsFind s 0
  ExpandString := fun dst template src m =>
    if template = str "$1" then
      match m with
      | [_, _, a, b] => dst ++ (src.drop a.toNat).take (b.toNat - a.toNat)
      | _ => dst
    else
      dst ++ template

/-! ## `internal/database/badger/badger.go` -/

/-- The part of Go's `encoding/json` the store calls, at the three types it is
called at: `json.Marshal` on a `[]database.Tag`, and `json.Unmarshal` into a
`*[]database.Tag` and into a `*[]string`.  `Unmarshal` gives the decoded slice or
the error; what a failed `Unmarshal` leaves in its target is never read by the
store. -/
structure JSON where
  MarshalTags : List Tag → Except GoError (List (Fin 256))
  UnmarshalTags : List (Fin 256) → Except GoError (List Tag)
  UnmarshalStrings : List (Fin 256) → Except GoError (List GoString)

/-- The constant `tagsPrefix`. -/
def tagsPrefix : GoString := str "tags"

/-- The sentinel error `badger.ErrKeyNotFound`. -/
def ErrKeyNotFound : GoError := .new (str "Key not found")

/-- The struct `BadgerDatabase`; the badger database `db` is the finite map from
keys to values it holds.  Failures of the storage medium are not modelled. -/
structure BadgerDatabase where
  db : GoMap (List (Fin 256))

/-- The method `(*badger.Txn).Get` followed by `(*badger.Item).Value`: the value
stored under `key`, or `ErrKeyNotFound`. -/
def Txn.Get (txn : GoMap (List (Fin 256))) (key : List (Fin 256)) :
    Except GoError (List (Fin 256)) :=
  match GoMap.lookup txn key with
  | some val => .ok val
  | none => .error ErrKeyNotFound

/-- The method `(*badger.Txn).SetEntry` on the entry `badger.NewEntry(key, val)`. -/
def Txn.SetEntry (txn : GoMap (List (Fin 256))) (key val : List (Fin 256)) :
    GoMap (List (Fin 256)) :=
  GoMap.set txn key val

/-- The function `keyForRepo`: `fmt.Sprintf("%s:%s", prefix, repo)`. -/
def keyForRepo (pre repo : GoString) : List (Fin 256) :=
  pre ++ str ":" ++ repo

/-- The function `marshal`. -/
def marshal (j : JSON) (t : List Tag) : Except GoError (List (Fin 256)) :=
  j.MarshalTags t

/-- The function `unmarshal`. -/
def unmarshal (j : JSON) (b : List (Fin 256)) : Result (List Tag) :=
  match j.UnmarshalTags b with
  | .ok tags => .ok tags
  | .error err =>
    match j.UnmarshalStrings b with
    | .error err2 =>
      .error (.wrap (str "failed unmarshaling values. First error: " ++ err.Error ++
        str ". Second error: " ++ err2.Error) err2)
    | .ok tagsOld => .ok (tagsOld.map (fun tag => { Name := tag, Digest := str "" }))

/-- The function `getOrEmpty`. -/
def getOrEmpty (j : JSON) (txn : GoMap (List (Fin 256))) (repo : GoString) :
    Result (List Tag) :=
  match Txn.Get txn (keyForRepo tagsPrefix repo) with
  | .error err => if err = ErrKeyNotFound then .ok [] else .error err
  | .ok val => unmarshal j val

/-- The method `(*BadgerDatabase).Tags`. -/
def BadgerDatabase.Tags (j : JSON) (a : BadgerDatabase) (repo : GoString) :
    Result (List Tag) :=
  getOrEmpty j a.db repo

/-- The method `(*BadgerDatabase).SetTags`: the database after the call and the
error returned (`none` for nil). -/
def BadgerDatabase.SetTags (j : JSON) (a : BadgerDatabase) (repo : GoString)
    (tags : List Tag) : BadgerDatabase × Option GoError :=
  match marshal j tags with
  | .error err => (a, some err)
  | .ok b => ({ db := Txn.SetEntry a.db (keyForRepo tagsPrefix repo) b }, none)

/-- The function `NewBadgerDatabase` on a freshly opened, empty badger database (the
`createBadgerDatabase` of the tests). -/
def BadgerDatabase.empty : BadgerDatabase := { db := [] }

/-- The database after a sequence of `SetTags` calls, in order. -/
def BadgerDatabase.SetTagsAll (j : JSON) (a : BadgerDatabase)
    (writes : List (GoString × List Tag)) : BadgerDatabase :=
  writes.foldl (fun a w => (BadgerDatabase.SetTags j a w.1 w.2).1) a

/-- What the store needs of `encoding/json` to give back a tag list: `Marshal`
succeeds on it, and `Unmarshal` of the result into a `[]database.Tag` gives the
list.  (Go's `encoding/json` writes a string as it is when it is valid UTF-8, and
with the replacement character in place of its other bytes.) -/
def JSON.RoundTrips (j : JSON) (tags : List Tag) : Prop :=
  ∃ b, j.MarshalTags tags = .ok b ∧ j.UnmarshalTags b = .ok tags

/-- The bytes `b` are a legacy record of `names`, a JSON array of bare strings, for
`encoding/json`: decoded into a `[]string` they give `names`; decoded into a
`[]database.Tag` they give an error when the array has an element (a string is no
`database.Tag`), and the empty slice when it has none. -/
def JSON.IsLegacyEncoding (j : JSON) (b : List (Fin 256)) (names : List GoString) :
    Prop :=
  j.UnmarshalStrings b = .ok names ∧
    (names ≠ [] → ∃ e, j.UnmarshalTags b = .error e) ∧
    (names = [] → j.UnmarshalTags b = .ok [])

/-! ### A JSON codec for the examples

A reader and a writer of the two record formats, without white space: strings are
written between double quotes, with a backslash before a double quote or a
backslash. -/

/-- The bytes of a JSON string after the opening quote: the text and what follows
the closing quote.  `escaped` says that the byte before was a backslash. -/
def readStringBody : Bool → List (Fin 256) → Option (GoString × List (Fin 256))
  | _, [] => none
  | true, c :: rest => (readStringBody false rest).map (fun r => (c :: r.1, r.2))
  | false, c :: rest =>
    if c = 34 then some ([], rest)
    else if c = 92 then readStringBody true rest
    else (readStringBody false rest).map (fun r => (c :: r.1, r.2))

/-- A JSON string at the head of the input. -/
def readString : List (Fin 256) → Option (GoString × List (Fin 256))
  | [] => none
  | c :: rest => if c = 34 then readStringBody false rest else none

/-- The input after the given literal text, when it starts with it. -/
def readLit (lit : List (Fin 256)) (b : List (Fin 256)) : Option (List (Fin 256)) :=
  if lit.isPrefixOf b then some (b.drop lit.length) else none

/-- A JSON object with the members `name` and `digest`, in this order. -/
def readTag (b : List (Fin 256)) : Option (Tag × List (Fin 256)) :=
  match readLit (str "\x7b\"name\":") b with
  | none => none
  | some b1 =>
    match readString b1 with
    | none => none
    | some (name, b2) =>
      match readLit (str ",\"digest\":") b2 with
      | none => none
      | some b3 =>
        match readString b3 with
        | none => none
        | some (digest, b4) =>
          match readLit (str "\x7d") b4 with
          | none => none
          | some b5 => some ({ Name := name, Digest := digest }, b5)

/-- The elements of a JSON array after its first element, up to the closing
bracket, which must end the input. -/
def readRest {α : Type} (item : List (Fin 256) → Option (α × List (Fin 256))) :
    Nat → List (Fin 256) → Option (List α)
  | 0, _ => none
  | fuel + 1, b =>
    if b = str "]" then some []
    else
      match readLit (str ",") b with
      | none => none
      | some b1 =>
        match item b1 with
        | none => none
        | some (x, b2) =>
          match readRest item fuel b2 with
          | none => none
          | some xs => some (x :: xs)

/-- A JSON array that is the whole input. -/
def readArray {α : Type} (item : List (Fin 256) → Option (α × List (Fin 256)))
    (b : List (Fin 256)) : Option (List α) :=
  if b = str "[]" then some []
  else
    match readLit (str "[") b with
    | none => none
    | some b1 =>
      match item b1 with
      | none => none
      | some (x, b2) =>
        match readRest item (b2.length + 1) b2 with
        | none => none
        | some xs => some (x :: xs)

/-- A string written as JSON. -/
def writeString (s : GoString) : List (Fin 256) :=
  [34] ++ s.flatMap (fun c => if c = 34 ∨ c = 92 then [92, c] else [c]) ++ [34]

/-- A tag written as JSON. -/
def writeTag (t : Tag) : List (Fin 256) :=
  str "\x7b\"name\":" ++ writeString t.Name ++ str ",\"digest\":" ++ writeString t.Digest ++
    str "\x7d"

/-- An array written as JSON. -/
def writeArray (items : List (List (Fin 256))) : List (Fin 256) :=
  str "[" ++ (items.intersperse (str ",")).flatten ++ str "]"

/-- The codec of the examples. -/
def exampleJSON : JSON where
  MarshalTags := fun tags => .ok (writeArray (tags.map writeTag))
  UnmarshalTags := fun b =>
    match readArray readTag b with
    | some tags => .ok tags
    | none => .error (.new (str "json: cannot unmarshal into []database.Tag"))
  UnmarshalStrings := fun b =>
    match readArray readString b with
    | some names => .ok names
    | none => .error (.new (str "json: cannot unmarshal into []string"))

/-! ### Go's `encoding/json` on the records of the store

A model of `json.Marshal` and `json.Unmarshal` at the types the store uses, on JSON
texts in the compact form that `Marshal` writes (no white space, the members of a
tag in the order `name`, `digest`).  Strings follow Go: `Marshal` writes a string
"coerced to valid UTF-8, replacing invalid bytes with the Unicode replacement
rune", and `Unmarshal` does the same with the bytes it reads.  The member names are
those of the struct tags of `database.Tag`, which is not among the sources; no
property below depends on them. -/

/-- Whether a byte is a UTF-8 continuation byte, `0x80` to `0xBF`. -/
def isCont (c : Fin 256) : Bool := decide (128 ≤ c.val ∧ c.val ≤ 191)

/-- Whether `b1` can follow the leading byte `b0` of a rune of three or four bytes
(the accept ranges of Go's `unicode/utf8`: no overlong forms, no surrogates, nothing
above U+10FFFF). -/
def secondOK (b0 b1 : Fin 256) : Bool :=
  if b0.val = 224 then decide (160 ≤ b1.val ∧ b1.val ≤ 191)
  else if b0.val = 237 then decide (128 ≤ b1.val ∧ b1.val ≤ 159)
  else if b0.val = 240 then decide (144 ≤ b1.val ∧ b1.val ≤ 191)
  else if b0.val = 244 then decide (128 ≤ b1.val ∧ b1.val ≤ 143)
  else isCont b1

/-- The size of `utf8.DecodeRune`: the number of bytes of the rune encoded at the
head of the string, and `0` when the head is no valid encoding (Go then takes one
byte as the replacement rune). -/
def runeLen : List (Fin 256) → Nat
  | [] => 0
  | [b0] => if b0.val < 128 then 1 else 0
  | [b0, b1] =>
    if b0.val < 128 then 1
    else if 194 ≤ b0.val ∧ b0.val < 224 ∧ isCont b1 = true then 2
    else 0
  | [b0, b1, b2] =>
    if b0.val < 128 then 1
    else if 194 ≤ b0.val ∧ b0.val < 224 ∧ isCont b1 = true then 2
    else if 224 ≤ b0.val ∧ b0.val < 240 ∧ secondOK b0 b1 = true ∧ isCont b2 = true then 3
    else 0
  | b0 :: b1 :: b2 :: b3 :: _ =>
    if b0.val < 128 then 1
    else if 194 ≤ b0.val ∧ b0.val < 224 ∧ isCont b1 = true then 2
    else if 224 ≤ b0.val ∧ b0.val < 240 ∧ secondOK b0 b1 = true ∧ isCont b2 = true then 3
    else if 240 ≤ b0.val ∧ b0.val < 245 ∧ secondOK b0 b1 = true ∧ isCont b2 = true ∧
        isCont b3 = true then 4
    else 0

/-- The UTF-8 encoding of the replacement rune U+FFFD. -/
def replacementRune : List (Fin 256) := [239, 191, 189]

/-- The function `utf8.ValidString`, with a bound on the number of runes. -/
def validRunes : Nat → List (Fin 256) → Bool
  | _, [] => true
  | 0, _ :: _ => false
  | fuel + 1, c :: rest =>
    if runeLen (c :: rest) = 0 then false
    else validRunes fuel ((c :: rest).drop (runeLen (c :: rest)))

/-- The function `utf8.ValidString`: the string is a sequence of encoded runes. -/
def utf8Valid (s : GoString) : Bool := validRunes s.length s

/-- The string coerced to valid UTF-8, with a bound on the number of runes: each
byte that starts no valid encoding becomes the replacement rune. -/
def coerceRunes : Nat → List (Fin 256) → List (Fin 256)
  | _, [] => []
  | 0, _ :: _ => []
  | fuel + 1, c :: rest =>
    if runeLen (c :: rest) = 0 then replacementRune ++ coerceRunes fuel rest
    else (c :: rest).take (runeLen (c :: rest)) ++
      coerceRunes fuel ((c :: rest).drop (runeLen (c :: rest)))

/-- The string coerced to valid UTF-8 (`strings.ToValidUTF8` with the replacement
rune for each invalid byte). -/
def toValidUTF8 (s : GoString) : GoString := coerceRunes s.length s

/-- The lower-case hexadecimal digit of a number below sixteen. -/
def hexDigit (n : Nat) : Fin 256 := if n < 10 then Fin.ofNat (48 + n) else Fin.ofNat (87 + n)

/-- The value of a hexadecimal digit. -/
def hexVal (c : Fin 256) : Option Nat :=
  if 48 ≤ c.val ∧ c.val ≤ 57 then some (c.val - 48)
  else if 97 ≤ c.val ∧ c.val ≤ 102 then some (c.val - 87)
  else if 65 ≤ c.val ∧ c.val ≤ 70 then some (c.val - 55)
  else none

/-- The number written by four hexadecimal digits. -/
def parseHex4 : List (Fin 256) → Option Nat
  | [a, b, c, d] =>
    match hexVal a, hexVal b, hexVal c, hexVal d with
    | some x, some y, some z, some w => some (4096 * x + 256 * y + 16 * z + w)
    | _, _, _, _ => none
  | _ => none

/-- The UTF-8 encoding of a rune (`utf8.EncodeRune`); a surrogate is encoded as the
replacement rune. -/
def encodeRune (n : Nat) : List (Fin 256) :=
  if n < 128 then [Fin.ofNat n]
  else if n < 2048 then [Fin.ofNat (192 + n / 64), Fin.ofNat (128 + n % 64)]
  else if 55296 ≤ n ∧ n < 57344 then replacementRune
  else if n < 65536 then
    [Fin.ofNat (224 + n / 4096), Fin.ofNat (128 + n / 64 % 64), Fin.ofNat (128 + n % 64)]
  else
    [Fin.ofNat (240 + n / 262144), Fin.ofNat (128 + n / 4096 % 64),
      Fin.ofNat (128 + n / 64 % 64), Fin.ofNat (128 + n % 64)]

/-- What `Marshal` writes for a byte below `0x80` inside a string (HTML escaping on,
as in `json.Marshal`): a short escape for the quote, the backslash, the line feed,
the carriage return and the tab; `\u00XX` for the other control characters and for
`<`, `>` and `&`; the byte itself otherwise.  (Go from version 1.22 on writes the
short escapes `\b` and `\f` for two of the control characters; `Unmarshal` reads
both forms as the same byte.) -/
def escapeByte (c : Fin 256) : List (Fin 256) :=
  if c = 34 then [92, 34]
  else if c = 92 then [92, 92]
  else if c = 10 then [92, 110]
  else if c = 13 then [92, 114]
  else if c = 9 then [92, 116]
  else if c.val < 32 ∨ c = 60 ∨ c = 62 ∨ c = 38 then
    [92, 117, 48, 48, hexDigit (c.val / 16), hexDigit (c.val % 16)]
  else [c]

/-- One step of the loop of `Marshal` over a non-empty string: the text written for
the first rune, and the rest of the string.  A byte that starts no valid encoding is
written as `\ufffd`; U+2028 and U+2029 are written as escapes; any other rune is
copied. -/
def writeElement : GoString → List (Fin 256) × GoString
  | [] => ([], [])
  | c :: rest =>
    if c.val < 128 then (escapeByte c, rest)
    else if runeLen (c :: rest) = 0 then (str "\\ufffd", rest)
    else if (c :: rest).take 3 = [226, 128, 168] then (str "\\u2028", (c :: rest).drop 3)
    else if (c :: rest).take 3 = [226, 128, 169] then (str "\\u2029", (c :: rest).drop 3)
    else ((c :: rest).take (runeLen (c :: rest)), (c :: rest).drop (runeLen (c :: rest)))

/-- The text `Marshal` writes between the quotes of a string, with a bound on the
number of runes. -/
def writeElements : Nat → GoString → List (Fin 256)
  | _, [] => []
  | 0, _ :: _ => []
  | fuel + 1, c :: rest =>
    (writeElement (c :: rest)).1 ++ writeElements fuel (writeElement (c :: rest)).2

/-- A string as `Marshal` writes it. -/
def writeGoString (s : GoString) : List (Fin 256) :=
  [34] ++ writeElements s.length s ++ [34]

/-- The character a short escape stands for. -/
def unescapeChar (e : Fin 256) : Option (Fin 256) :=
  if e = 34 then some 34
  else if e = 92 then some 92
  else if e = 47 then some 47
  else if e = 98 then some 8
  else if e = 102 then some 12
  else if e = 110 then some 10
  else if e = 114 then some 13
  else if e = 116 then some 9
  else none

/-- The bytes an escape stands for and the input after it; `b` is the input after
the backslash.  A `\u` escape gives the encoding of its rune; a high surrogate
followed by the escape of a low surrogate gives the rune of the pair, and any other
surrogate the replacement rune. -/
def readEscape (b : List (Fin 256)) : Option (List (Fin 256) × List (Fin 256)) :=
  if b.head? = some 117 then
    match parseHex4 (b.tail.take 4) with
    | none => none
    | some n =>
      if 55296 ≤ n ∧ n < 56320 ∧ (b.drop 5).take 2 = [92, 117] then
        match parseHex4 ((b.drop 7).take 4) with
        | some m =>
          if 56320 ≤ m ∧ m < 57344 then
            some (encodeRune (65536 + (n - 55296) * 1024 + (m - 56320)), b.drop 11)
          else some (replacementRune, b.drop 5)
        | none => some (replacementRune, b.drop 5)
      else some (encodeRune n, b.drop 5)
  else
    match b.head? with
    | none => none
    | some e =>
      match unescapeChar e with
      | some d => some ([d], b.tail)
      | none => none

/-- One step of the loop of `Unmarshal` over the text of a string: the bytes the
first element stands for and the input after it.  An escape is decoded, a control
character is refused, a byte that starts no valid encoding gives the replacement
rune, and any other rune is copied. -/
def readElement : List (Fin 256) → Option (List (Fin 256) × List (Fin 256))
  | [] => none
  | c :: rest =>
    if c = 92 then readEscape rest
    else if c.val < 32 then none
    else if runeLen (c :: rest) = 0 then some (replacementRune, rest)
    else some ((c :: rest).take (runeLen (c :: rest)), (c :: rest).drop (runeLen (c :: rest)))

/-- The text of a string after the opening quote, read up to the closing quote: the
string and the input after the quote. -/
def readElements : Nat → List (Fin 256) → Option (GoString × List (Fin 256))
  | 0, _ => none
  | fuel + 1, b =>
    if b.head? = some 34 then some ([], b.tail)
    else
      match readElement b with
      | none => none
      | some x =>
        match readElements fuel x.2 with
        | none => none
        | some r => some (x.1 ++ r.1, r.2)

/-- A JSON string at the head of the input, as `Unmarshal` reads it. -/
def readGoString (b : List (Fin 256)) : Option (GoString × List (Fin 256)) :=
  if b.head? = some 34 then readElements b.length b.tail else none

/-- A tag as `Marshal` writes it. -/
def writeGoTag (t : Tag) : List (Fin 256) :=
  str "\x7b\"name\":" ++ writeGoString t.Name ++ str ",\"digest\":" ++
    writeGoString t.Digest ++ str "\x7d"

/-- A tag at the head of the input, as `Unmarshal` reads it. -/
def readGoTag (b : List (Fin 256)) : Option (Tag × List (Fin 256)) :=
  match readLit (str "\x7b\"name\":") b with
  | none => none
  | some b1 =>
    match readGoString b1 with
    | none => none
    | some name =>
      match readLit (str ",\"digest\":") name.2 with
      | none => none
      | some b3 =>
        match readGoString b3 with
        | none => none
        | some digest =>
          match readLit (str "\x7d") digest.2 with
          | none => none
          | some b5 => some ({ Name := name.1, Digest := digest.1 }, b5)

/-- The call `json.Marshal(names)` on a `[]string`: a legacy record, what the store
wrote before it recorded digests. -/
def goMarshalStrings (names : List GoString) : List (Fin 256) :=
  writeArray (names.map writeGoString)

/-- Go's `encoding/json` at the types the store uses.  `Marshal` does not fail on
these types.  `Unmarshal` reads the JSON value `null` as the nil slice. -/
def goJSON : JSON where
  MarshalTags := fun tags => .ok (writeArray (tags.map writeGoTag))
  UnmarshalTags := fun b =>
    if b = str "null" then .ok []
    else
      match readArray readGoTag b with
      | some tags => .ok tags
      | none => .error (.new (str "json: cannot unmarshal into Go value of type []database.Tag"))
  UnmarshalStrings := fun b =>
    if b = str "null" then .ok []
    else
      match readArray readGoString b with
      | some names => .ok names
      | none => .error (.new (str "json: cannot unmarshal into Go value of type []string"))

/-! ## The Numerical and SemVer policies

Their sources (`internal/policy/numerical.go`, `internal/policy/semver.go`) are not
among the files; only their tests are.  They are modelled from §4.3 of the spec. -/

/-- Modelled from the spec: the configuration of the Numerical policy, whose source
`internal/policy/numerical.go` is missing: an ordering direction, `"ASC"` or
`"DESC"` (§3, §4.3). -/
structure Numerical where
  Order : GoString
deriving DecidableEq, Repr

/-- Modelled from the spec: the step of the reduction of `Numerical.Latest`, missing
with `internal/policy/numerical.go`.  The candidate `c` replaces the tag retained so
far when its value is strictly greater (ascending) or strictly smaller (descending);
on equal values the first encountered is retained (§4.3, Numerical). -/
def Numerical.step (p : Numerical) (best : Option (ℚ × Tag)) (c : ℚ × Tag) :
    Option (ℚ × Tag) :=
  match best with
  | none => some c
  | some b =>
    if p.Order = str "DESC" then (if c.1 < b.1 then some c else some b)
    else (if b.1 < c.1 then some c else some b)

/-- Modelled from the spec: `Numerical.Latest`, missing with
`internal/policy/numerical.go`.  An empty sequence fails with an "empty input"
error; every name is parsed as a number (`parse`, `none` when the name is not
numeric) and the whole evaluation fails with a parse error naming the offending tag
if a name is not numeric; ascending returns the tag of maximum value and descending
the tag of minimum value, compared as numbers (§4.3). -/
def Numerical.Latest (parse : GoString → Option ℚ) (p : Numerical)
    (versions : List Tag) : Result Tag :=
  if versions.length = 0 then
    .error (.new (str "empty input"))
  else
    match versions.find? (fun t => (parse t.Name).isNone) with
    | some bad => .error (.new (str "parse error: " ++ bad.Name))
    | none =>
      match (versions.filterMap (fun t => (parse t.Name).map (fun v => (v, t)))).foldl
          (Numerical.step p) none with
      | some best => .ok best.2
      | none => .panic

/-- Modelled from the spec: the configuration of the SemVer policy, whose source
`internal/policy/semver.go` is missing: a range of semantic versions (§3, §4.3),
given by the test whether a version satisfies it.  `V` is the type of parsed
semantic versions. -/
structure SemVer (V : Type) where
  Range : V → Bool

/-- Modelled from the spec: removal of the optional leading `v` of a tag name
(§4.3, SemVer, step 1), missing with `internal/policy/semver.go`. -/
def stripV (name : GoString) : GoString :=
  if name.head? = some 118 then name.tail else name

/-- Modelled from the spec: the candidates of `SemVer.Latest` (§4.3, SemVer, steps 1
and 2), missing with `internal/policy/semver.go`: the tags whose name, after the
optional leading `v`, parses as a semantic version (`parse`, `none` when it does
not) that satisfies the range; the others are excluded without error. -/
def SemVer.candidates {V : Type} (parse : GoString → Option V) (p : SemVer V)
    (versions : List Tag) : List (V × Tag) :=
  versions.filterMap (fun t =>
    match parse (stripV t.Name) with
    | some v => if p.Range v then some (v, t) else none
    | none => none)

/-- Modelled from the spec: `SemVer.Latest`, missing with
`internal/policy/semver.go`.  An empty sequence fails with an "empty input" error;
with no candidate left it fails with a "no matching version" error; otherwise it
returns the original tag of a candidate of maximum precedence (`less a b`: the
version `a` has lower precedence than `b`), §4.3 steps 3 and 4. -/
def SemVer.Latest {V : Type} (parse : GoString → Option V) (less : V → V → Bool)
    (p : SemVer V) (versions : List Tag) : Result Tag :=
  if versions.length = 0 then
    .error (.new (str "empty input"))
  else
    match SemVer.candidates parse p versions with
    | [] => .error (.new (str "no matching version"))
    | first :: rest =>
      .ok (rest.foldl (fun best c => if less best.1 c.1 then c else best) first).2

/-! ## Example data -/

/-- The tags of the test case "valid pattern with capture group" of
`TestRegexFilter`. -/
def exampleTags : List Tag :=
  [⟨str "ver1", str "foo"⟩, ⟨str "ver2", str "bar"⟩, ⟨str "rel1", str "qux"⟩,
    ⟨str "ver3", str "baz"⟩]

/-- The filter of the test case "valid pattern with capture group" of
`TestRegexFilter`: pattern `ver(\d+)`, template `$1`. -/
def exampleFilter : RegexFilter :=
  { filtered := [], Regexp := verDigitsRegexp, Replace := str "$1" }

/-- The tags of `TestSetTags`. -/
def exampleStored : List Tag :=
  [⟨str "latest", str "latest-digest"⟩, ⟨str "v0.0.1", str "v0.0.1-digest"⟩,
    ⟨str "v0.0.2", str "v0.0.2-digest"⟩]

/-- The repository of the store tests. -/
def testRepo : GoString := str "testing/testing"


/-! ### Readers of numbers and versions for the examples -/

/-- The number written by a non-empty string of decimal digits. -/
def parseDigits (s : GoString) : Option Nat :=
  if s ≠ [] ∧ s.all isDigit = true then
    some (s.foldl (fun n c => 10 * n + (c.val - 48)) 0)
  else
    none

/-- A reader of numbers for the examples: the decimal integers, with an optional
minus sign, as in the integer cases of `TestNumerical_Latest`. -/
def exampleParseNumber (s : GoString) : Option ℚ :=
  if s.head? = some 45 then (parseDigits s.tail).map (fun n => -(n : ℚ))
  else (parseDigits s).map (fun n => (n : ℚ))

/-- The pieces of a string between its dots. -/
def splitOnDot : GoString → List GoString
  | [] => [[]]
  | c :: s =>
    if c = 46 then [] :: splitOnDot s
    else
      match splitOnDot s with
      | [] => [[c]]
      | w :: ws => (c :: w) :: ws

/-- A reader of versions for the examples: `major.minor.patch` in decimal digits,
without pre-release and build metadata. -/
def exampleParseVersion (s : GoString) : Option (Nat × Nat × Nat) :=
  match (splitOnDot s).map parseDigits with
  | [some major, some minor, some patch] => some (major, minor, patch)
  | _ => none

/-- The precedence of the versions of the examples: major, then minor, then patch,
compared as numbers. -/
def exampleLess (a b : Nat × Nat × Nat) : Bool :=
  decide (a.1 < b.1 ∨ (a.1 = b.1 ∧ (a.2.1 < b.2.1 ∨ (a.2.1 = b.2.1 ∧ a.2.2 < b.2.2))))

/-- The policy of the range `1.0.x` on the versions of the examples: major `1` and
minor `0`, any patch. -/
def exampleSemVer : SemVer (Nat × Nat × Nat) :=
  { Range := fun v => decide (v.1 = 1 ∧ v.2.1 = 0) }

/-- The tags of the test case "With valid format" of `TestSemVer_Latest`. -/
def exampleVersions : List Tag :=
  [⟨str "1.0.0", str "foo"⟩, ⟨str "1.0.0.1", str "bar"⟩, ⟨str "1.0.0p", str "baz"⟩,
    ⟨str "1.0.1", str "qux"⟩, ⟨str "1.2.0", str "faa"⟩, ⟨str "0.1.0", str "quux"⟩]

/-- Integer tags with negative and positive names, as in `TestNumerical_Latest`. -/
def exampleNumbers : List Tag :=
  [⟨str "-62", str "a"⟩, ⟨str "73", str "foodigest"⟩, ⟨str "15", str "b"⟩,
    ⟨str "-91", str "c"⟩, ⟨str "8", str "d"⟩]
/-! ## Lemmas: the order of Go strings

The order on `GoString` is the byte-wise lexicographic order of Go's string
comparison: the empty string is below every other string, and two non-empty strings
are compared by their first bytes, then by the rest. -/

theorem GoString.nil_lt_cons (c : Fin 256) (s : GoString) : ([] : GoString) < c :: s :=
  List.Lex.nil

theorem GoString.not_lt_nil (s : GoString) : ¬ s < ([] : GoString) := by
  intro h
  cases h

theorem GoString.cons_lt_cons (a b : Fin 256) (s t : GoString) :
    (a :: s : GoString) < b :: t ↔ a < b ∨ (a = b ∧ s < t) := by
  constructor
  · intro h
    cases h with
    | cons h => exact Or.inr ⟨rfl, h⟩
    | rel h => exact Or.inl h
  · rintro (h | ⟨rfl, h⟩)
    · exact List.Lex.rel h
    · exact List.Lex.cons h

/-! ## Lemmas: maps -/

theorem GoMap.find_filter_ne {β : Type} (m : GoMap β) (k k' : GoString) (h : k ≠ k') :
    (m.filter (fun e => decide (e.1 ≠ k))).find? (fun e => decide (e.1 = k')) =
      m.find? (fun e => decide (e.1 = k')) := by
  induction m with
  | nil => rfl
  | cons e m ih =>
    by_cases he : e.1 = k
    · have hne : ¬ e.1 = k' := fun h' => h (he ▸ h')
      rw [List.filter_cons_of_neg (by simpa using he), List.find?_cons_of_neg _ (by simpa using hne)]
      exact ih
    · rw [List.filter_cons_of_pos (by simpa using he)]
      by_cases he' : e.1 = k'
      · rw [List.find?_cons_of_pos _ (by simpa using he'),
          List.find?_cons_of_pos _ (by simpa using he')]
      · rw [List.find?_cons_of_neg _ (by simpa using he'),
          List.find?_cons_of_neg _ (by simpa using he')]
        exact ih

theorem GoMap.lookup_set {β : Type} (m : GoMap β) (k k' : GoString) (v : β) :
    GoMap.lookup (GoMap.set m k v) k' = if k = k' then some v else GoMap.lookup m k' := by
  unfold GoMap.lookup GoMap.set
  by_cases h : k = k'
  · simp [h]
  · rw [List.find?_cons_of_neg _ (by simpa using h), GoMap.find_filter_ne m k k' h, if_neg h]

theorem findLast_append_singleton (q : Tag → Bool) (l : List Tag) (t : Tag) :
    findLast q (l ++ [t]) = if q t then some t else findLast q l := by
  simp [findLast, List.find?_cons]
  cases q t <;> simp

theorem foldl_set_lookup (key : Tag → GoString) (val : Tag → Tag) (l : List Tag)
    (m : GoMap Tag) (k : GoString) :
    GoMap.lookup (l.foldl (fun m t => GoMap.set m (key t) (val t)) m) k =
      match findLast (fun t => decide (key t = k)) l with
      | some t => some (val t)
      | none => GoMap.lookup m k := by
  induction l using List.reverseRecOn generalizing m with
  | nil => simp [findLast]
  | append_singleton l t ih =>
    rw [List.foldl_append, findLast_append_singleton]
    simp only [List.foldl_cons, List.foldl_nil, GoMap.lookup_set]
    by_cases h : key t = k
    · simp [h]
    · simp [h, ih]

theorem findLast_some {q : Tag → Bool} {l : List Tag} {t : Tag}
    (h : findLast q l = some t) : t ∈ l ∧ q t = true := by
  unfold findLast at h
  exact ⟨List.mem_reverse.mp (List.mem_of_find?_eq_some h), List.find?_some h⟩

theorem findLast_isSome {q : Tag → Bool} {l : List Tag} {t : Tag}
    (hm : t ∈ l) (hq : q t = true) : ∃ u, findLast q l = some u := by
  unfold findLast
  cases h : l.reverse.find? q with
  | some u => exact ⟨u, rfl⟩
  | none =>
    rw [List.find?_eq_none] at h
    exact absurd hq (h t (List.mem_reverse.mpr hm))

/-! ## Lemmas: sorting -/

theorem StringSlice.Sort_perm (x : List GoString) : (StringSlice.Sort x).Perm x :=
  List.perm_insertionSort _ x

theorem StringSlice.Sort_sorted (x : List GoString) :
    (StringSlice.Sort x).Sorted (fun a b => a ≤ b) :=
  List.sorted_insertionSort _ x

theorem StringSlice.SortReverse_perm (x : List GoString) :
    (StringSlice.SortReverse x).Perm x :=
  List.perm_insertionSort _ x

theorem StringSlice.SortReverse_sorted (x : List GoString) :
    (StringSlice.SortReverse x).Sorted (fun a b => b ≤ a) := by
  haveI : IsTotal GoString (fun a b => b ≤ a) := ⟨fun a b => le_total b a⟩
  haveI : IsTrans GoString (fun a b => b ≤ a) := ⟨fun _ _ _ h1 h2 => le_trans h2 h1⟩
  exact List.sorted_insertionSort _ x

/-- The result of `sort.Sort` does not depend on the sorting algorithm: a slice has
one rearrangement in non-decreasing order. -/
theorem StringSlice.Sort_unique (x y : List GoString) (hp : y.Perm x)
    (hs : y.Sorted (fun a b => a ≤ b)) : y = StringSlice.Sort x :=
  List.eq_of_perm_of_sorted (hp.trans (StringSlice.Sort_perm x).symm) hs
    (StringSlice.Sort_sorted x)

/-- The result of `sort.Sort(sort.Reverse(x))` does not depend on the sorting
algorithm. -/
theorem StringSlice.SortReverse_unique (x y : List GoString) (hp : y.Perm x)
    (hs : y.Sorted (fun a b => b ≤ a)) : y = StringSlice.SortReverse x := by
  haveI : IsAntisymm GoString (fun a b => b ≤ a) := ⟨fun _ _ h1 h2 => le_antisymm h2 h1⟩
  exact List.eq_of_perm_of_sorted (hp.trans (StringSlice.SortReverse_perm x).symm) hs
    (StringSlice.SortReverse_sorted x)

/-- The first element of a non-empty slice after `sort.Sort`: an element of the
slice below all the others. -/
theorem StringSlice.Sort_head (x : List GoString) (hx : x ≠ []) :
    ∃ first rest, StringSlice.Sort x = first :: rest ∧ first ∈ x ∧ ∀ s ∈ x, first ≤ s := by
  have hp := StringSlice.Sort_perm x
  have hs := StringSlice.Sort_sorted x
  cases hsort : StringSlice.Sort x with
  | nil => rw [hsort] at hp; exact absurd hp.symm.eq_nil hx
  | cons first rest =>
    rw [hsort] at hp hs
    refine ⟨first, rest, rfl, hp.subset (List.mem_cons_self _ _), fun s hmem => ?_⟩
    rcases List.mem_cons.mp (hp.symm.subset hmem) with h | h
    · exact h ▸ le_refl _
    · exact List.rel_of_sorted_cons hs s h

/-- The first element of a non-empty slice after `sort.Sort(sort.Reverse(x))`: an
element of the slice above all the others. -/
theorem StringSlice.SortReverse_head (x : List GoString) (hx : x ≠ []) :
    ∃ first rest, StringSlice.SortReverse x = first :: rest ∧ first ∈ x ∧
      ∀ s ∈ x, s ≤ first := by
  have hp := StringSlice.SortReverse_perm x
  have hs := StringSlice.SortReverse_sorted x
  cases hsort : StringSlice.SortReverse x with
  | nil => rw [hsort] at hp; exact absurd hp.symm.eq_nil hx
  | cons first rest =>
    rw [hsort] at hp hs
    refine ⟨first, rest, rfl, hp.subset (List.mem_cons_self _ _), fun s hmem => ?_⟩
    rcases List.mem_cons.mp (hp.symm.subset hmem) with h | h
    · exact h ▸ le_refl _
    · exact List.rel_of_sorted_cons hs s h

/-! ## Lemmas: `Alphabetical.Latest` -/

theorem Alphabetical.tagsByName_lookup (versions : List Tag) (k : GoString) :
    GoMap.lookup (Alphabetical.tagsByName versions) k =
      findLast (fun t => decide (t.Name = k)) versions := by
  unfold Alphabetical.tagsByName
  rw [foldl_set_lookup (fun t => t.Name) (fun t => t) versions [] k]
  cases findLast (fun t => decide (t.Name = k)) versions <;> rfl

/-- What `Latest` computes on a non-empty list: the first name of the sorted slice
is the name of an input tag, extreme among the input names in the direction given by
`Order`, and the tag returned is the last input tag carrying that name. -/
theorem Alphabetical.Latest_spec (p : Alphabetical) (versions : List Tag)
    (h : versions ≠ []) :
    ∃ first rest r, Alphabetical.sorted p versions = first :: rest ∧
      GoMap.lookup (Alphabetical.tagsByName versions) first = some r ∧
      Alphabetical.Latest p versions = .ok r ∧ r ∈ versions ∧ r.Name = first ∧
      findLast (fun t => decide (t.Name = first)) versions = some r ∧
      (if p.Order = AlphabeticalOrderDesc then ∀ t ∈ versions, r.Name ≤ t.Name
       else ∀ t ∈ versions, t.Name ≤ r.Name) := by
  have hn : Alphabetical.tagNames versions ≠ [] := by
    simpa [Alphabetical.tagNames] using h
  have hlen : ¬ versions.length = 0 := by simpa using h
  have key : ∀ first rest, Alphabetical.sorted p versions = first :: rest →
      first ∈ Alphabetical.tagNames versions →
      ∃ r, GoMap.lookup (Alphabetical.tagsByName versions) first = some r ∧
        Alphabetical.Latest p versions = .ok r ∧ r ∈ versions ∧ r.Name = first ∧
        findLast (fun t => decide (t.Name = first)) versions = some r := by
    intro first rest hsorted hmem
    obtain ⟨t, ht, hname⟩ := List.mem_map.mp hmem
    obtain ⟨r, hr⟩ := findLast_isSome (q := fun t => decide (t.Name = first)) ht
      (by simpa using hname)
    have hr' := findLast_some hr
    refine ⟨r, ?_, ?_, hr'.1, by simpa using hr'.2, hr⟩
    · rw [Alphabetical.tagsByName_lookup, hr]
    · unfold Alphabetical.Latest
      rw [if_neg hlen, hsorted]
      simp only [GoMap.get, Alphabetical.tagsByName_lookup, hr, Option.getD_some]
  by_cases hd : p.Order = AlphabeticalOrderDesc
  · obtain ⟨first, rest, hs, hmem, hmin⟩ :=
      StringSlice.Sort_head (Alphabetical.tagNames versions) hn
    have hsorted : Alphabetical.sorted p versions = first :: rest := by
      unfold Alphabetical.sorted; rw [if_pos hd, hs]
    obtain ⟨r, h1, h2, h3, h4, h5⟩ := key first rest hsorted hmem
    refine ⟨first, rest, r, hsorted, h1, h2, h3, h4, h5, ?_⟩
    rw [if_pos hd, h4]
    exact fun t ht => hmin _ (List.mem_map.mpr ⟨t, ht, rfl⟩)
  · obtain ⟨first, rest, hs, hmem, hmax⟩ :=
      StringSlice.SortReverse_head (Alphabetical.tagNames versions) hn
    have hsorted : Alphabetical.sorted p versions = first :: rest := by
      unfold Alphabetical.sorted; rw [if_neg hd, hs]
    obtain ⟨r, h1, h2, h3, h4, h5⟩ := key first rest hsorted hmem
    refine ⟨first, rest, r, hsorted, h1, h2, h3, h4, h5, ?_⟩
    rw [if_neg hd, h4]
    exact fun t ht => hmax _ (List.mem_map.mpr ⟨t, ht, rfl⟩)

/-! ## Lemmas: the keys of a map -/

theorem GoMap.set_nodup {β : Type} (m : GoMap β) (k : GoString) (v : β)
    (h : (m.map Prod.fst).Nodup) : ((GoMap.set m k v).map Prod.fst).Nodup := by
  unfold GoMap.set
  rw [List.map_cons, List.nodup_cons]
  constructor
  · intro hk
    obtain ⟨e, he, hek⟩ := List.mem_map.mp hk
    have := (List.mem_filter.mp he).2
    simp at this
    exact this hek
  · exact (List.filter_sublist m).map Prod.fst |>.nodup h

theorem GoMap.mem_iff_lookup {β : Type} (m : GoMap β) (h : (m.map Prod.fst).Nodup)
    (k : GoString) (v : β) : (k, v) ∈ m ↔ GoMap.lookup m k = some v := by
  unfold GoMap.lookup
  induction m with
  | nil => simp
  | cons e m ih =>
    rw [List.map_cons, List.nodup_cons] at h
    by_cases hk : e.1 = k
    · rw [List.find?_cons_of_pos _ (by simpa using hk)]
      constructor
      · intro hm
        rcases List.mem_cons.mp hm with h1 | h1
        · rw [← h1]; rfl
        · exact absurd (List.mem_map.mpr ⟨(k, v), h1, rfl⟩) (hk ▸ h.1)
      · intro hv
        simp only [Option.map_some', Option.some.injEq] at hv
        rw [← hk, ← hv]
        exact List.mem_cons_self _ _
    · rw [List.find?_cons_of_neg _ (by simpa using hk), ← ih h.2]
      constructor
      · intro hm
        rcases List.mem_cons.mp hm with h1 | h1
        · exact absurd (by rw [← h1]) hk
        · exact h1
      · exact fun hm => List.mem_cons_of_mem _ hm

theorem foldl_setIf_lookup (c : Tag → Bool) (key : Tag → GoString) (val : Tag → Tag)
    (l : List Tag) (m : GoMap Tag) (k : GoString) :
    GoMap.lookup (l.foldl (fun m t => if c t then GoMap.set m (key t) (val t) else m) m) k =
      match findLast (fun t => c t && decide (key t = k)) l with
      | some t => some (val t)
      | none => GoMap.lookup m k := by
  induction l using List.reverseRecOn generalizing m with
  | nil => simp [findLast]
  | append_singleton l t ih =>
    rw [List.foldl_append, findLast_append_singleton]
    simp only [List.foldl_cons, List.foldl_nil]
    by_cases hc : c t = true
    · rw [if_pos hc, GoMap.lookup_set]
      by_cases h : key t = k
      · simp [h, hc]
      · simp [h, ih]
    · simp [hc, ih]

theorem foldl_setIf_nodup (c : Tag → Bool) (key : Tag → GoString) (val : Tag → Tag)
    (l : List Tag) (m : GoMap Tag) (h : (m.map Prod.fst).Nodup) :
    ((l.foldl (fun m t => if c t then GoMap.set m (key t) (val t) else m) m).map
      Prod.fst).Nodup := by
  induction l generalizing m with
  | nil => exact h
  | cons t l ih =>
    rw [List.foldl_cons]
    apply ih
    by_cases hc : c t = true
    · rw [if_pos hc]; exact GoMap.set_nodup m _ _ h
    · rw [if_neg hc]; exact h

/-! ## Lemmas: `RegexFilter` -/

theorem RegexFilter.Apply_filtered (f : RegexFilter) (list : List Tag) :
    (RegexFilter.Apply f list).filtered =
      list.foldl (fun m t => if RegexFilter.isMatch f t.Name then
        GoMap.set m (RegexFilter.outputName f t.Name) { Name := t.Name, Digest := t.Digest }
        else m) [] := rfl

/-- The keys of the map built by `Apply` are pairwise distinct. -/
theorem RegexFilter.Apply_nodup (f : RegexFilter) (list : List Tag) :
    ((RegexFilter.Apply f list).filtered.map Prod.fst).Nodup := by
  rw [RegexFilter.Apply_filtered]
  exact foldl_setIf_nodup _ _ _ list [] List.nodup_nil

/-- The entry of the map built by `Apply` under a name: the last matching item of
the list with this output name. -/
theorem RegexFilter.Apply_lookup (f : RegexFilter) (list : List Tag) (k : GoString) :
    GoMap.lookup (RegexFilter.Apply f list).filtered k =
      findLast (fun t => RegexFilter.isMatch f t.Name &&
        decide (RegexFilter.outputName f t.Name = k)) list := by
  rw [RegexFilter.Apply_filtered, foldl_setIf_lookup]
  cases findLast (fun t => RegexFilter.isMatch f t.Name &&
        decide (RegexFilter.outputName f t.Name = k)) list <;> rfl

/-- The elements of `Items()` after `Apply`: `t` is one of them exactly when the
last matching item `u` with output name `t.Name` exists and has the digest of `t`;
`u` is then what `GetOriginalTag(t.Name)` returns. -/
theorem RegexFilter.mem_Items_iff (f : RegexFilter) (list : List Tag) (t : Tag) :
    t ∈ RegexFilter.Items (RegexFilter.Apply f list) ↔
      ∃ u, findLast (fun x => RegexFilter.isMatch f x.Name &&
        decide (RegexFilter.outputName f x.Name = t.Name)) list = some u ∧
        u.Digest = t.Digest := by
  unfold RegexFilter.Items
  rw [List.mem_map]
  constructor
  · rintro ⟨⟨k, v⟩, hmem, rfl⟩
    rw [GoMap.mem_iff_lookup _ (RegexFilter.Apply_nodup f list), RegexFilter.Apply_lookup] at hmem
    exact ⟨v, hmem, rfl⟩
  · rintro ⟨u, hu, hd⟩
    refine ⟨(t.Name, u), ?_, ?_⟩
    · rw [GoMap.mem_iff_lookup _ (RegexFilter.Apply_nodup f list), RegexFilter.Apply_lookup]
      exact hu
    · cases t; simp at hd ⊢; exact hd

/-- The original tag of an element of `Items()`. -/
theorem RegexFilter.Items_original (f : RegexFilter) (list : List Tag) (t : Tag)
    (ht : t ∈ RegexFilter.Items (RegexFilter.Apply f list)) :
    RegexFilter.GetOriginalTag (RegexFilter.Apply f list) t.Name ∈ list ∧
      RegexFilter.isMatch f
        (RegexFilter.GetOriginalTag (RegexFilter.Apply f list) t.Name).Name = true ∧
      RegexFilter.outputName f
        (RegexFilter.GetOriginalTag (RegexFilter.Apply f list) t.Name).Name = t.Name ∧
      (RegexFilter.GetOriginalTag (RegexFilter.Apply f list) t.Name).Digest = t.Digest := by
  obtain ⟨u, hu, hd⟩ := (RegexFilter.mem_Items_iff f list t).mp ht
  have hget : RegexFilter.GetOriginalTag (RegexFilter.Apply f list) t.Name = u := by
    unfold RegexFilter.GetOriginalTag GoMap.get
    rw [RegexFilter.Apply_lookup, hu]; rfl
  have hq := findLast_some hu
  rw [hget]
  simp only [Bool.and_eq_true, decide_eq_true_eq] at hq
  exact ⟨hq.1, hq.2.1, hq.2.2, hd⟩

/-- The names of the elements of `Items()`: the output names of the matching
items. -/
theorem RegexFilter.Items_names (f : RegexFilter) (list : List Tag) (o : GoString) :
    (∃ t ∈ RegexFilter.Items (RegexFilter.Apply f list), t.Name = o) ↔
      ∃ u ∈ list, RegexFilter.isMatch f u.Name = true ∧
        RegexFilter.outputName f u.Name = o := by
  constructor
  · rintro ⟨t, ht, rfl⟩
    have h := RegexFilter.Items_original f list t ht
    exact ⟨_, h.1, h.2.1, h.2.2.1⟩
  · rintro ⟨u, hu, hm, ho⟩
    obtain ⟨w, hw⟩ := findLast_isSome (q := fun x => RegexFilter.isMatch f x.Name &&
        decide (RegexFilter.outputName f x.Name = o)) hu (by simp [hm, ho])
    refine ⟨⟨o, w.Digest⟩, ?_, rfl⟩
    rw [RegexFilter.mem_Items_iff]
    exact ⟨w, hw, rfl⟩

/-- Items that do not match leave the map built by `Apply` as it is. -/
theorem RegexFilter.foldl_applyStep_filter (f : RegexFilter) (list : List Tag)
    (m : GoMap Tag) :
    list.foldl (RegexFilter.applyStep f) m =
      (list.filter (fun u => RegexFilter.isMatch f u.Name)).foldl
        (RegexFilter.applyStep f) m := by
  induction list generalizing m with
  | nil => rfl
  | cons u list ih =>
    by_cases hu : RegexFilter.isMatch f u.Name = true
    · simp only [List.filter_cons, hu, if_true, List.foldl_cons]
      exact ih _
    · have hstep : RegexFilter.applyStep f m u = m := by
        unfold RegexFilter.applyStep
        rw [if_neg hu]
      simp only [List.filter_cons, hu, Bool.false_eq_true, if_false, List.foldl_cons, hstep]
      exact ih _

/-! ## Lemmas: the store -/

/-- Distinct repositories have distinct keys. -/
theorem keyForRepo_injective (pre a b : GoString) (h : keyForRepo pre a = keyForRepo pre b) :
    a = b := by
  unfold keyForRepo at h
  exact List.append_cancel_left h

theorem Txn.Get_SetEntry_same (txn : GoMap (List (Fin 256))) (key val : List (Fin 256)) :
    Txn.Get (Txn.SetEntry txn key val) key = .ok val := by
  unfold Txn.Get Txn.SetEntry
  rw [GoMap.lookup_set, if_pos rfl]

theorem Txn.Get_SetEntry_other (txn : GoMap (List (Fin 256))) (key key' val : List (Fin 256))
    (h : key ≠ key') : Txn.Get (Txn.SetEntry txn key val) key' = Txn.Get txn key' := by
  unfold Txn.Get Txn.SetEntry
  rw [GoMap.lookup_set, if_neg h]

/-- A call of `SetTags` for a repository leaves what `Get` finds under the key of
another repository as it was. -/
theorem BadgerDatabase.SetTags_Get_other (j : JSON) (a : BadgerDatabase)
    (repo other : GoString) (tags : List Tag) (h : repo ≠ other) :
    Txn.Get (BadgerDatabase.SetTags j a repo tags).1.db (keyForRepo tagsPrefix other) =
      Txn.Get a.db (keyForRepo tagsPrefix other) := by
  unfold BadgerDatabase.SetTags
  cases marshal j tags with
  | error err => rfl
  | ok b =>
    exact Txn.Get_SetEntry_other _ _ _ _ (fun hk => h (keyForRepo_injective _ _ _ hk))

theorem BadgerDatabase.SetTagsAll_Get_other (j : JSON) (a : BadgerDatabase)
    (other : GoString) (writes : List (GoString × List Tag))
    (h : ∀ w ∈ writes, w.1 ≠ other) :
    Txn.Get (BadgerDatabase.SetTagsAll j a writes).db (keyForRepo tagsPrefix other) =
      Txn.Get a.db (keyForRepo tagsPrefix other) := by
  unfold BadgerDatabase.SetTagsAll
  induction writes generalizing a with
  | nil => rfl
  | cons w writes ih =>
    rw [List.foldl_cons, ih _ (fun w' hw' => h w' (List.mem_cons_of_mem _ hw'))]
    exact BadgerDatabase.SetTags_Get_other j a w.1 other w.2 (h w (List.mem_cons_self _ _))

/-- What `Tags` returns right after a successful `marshal` was stored. -/
theorem BadgerDatabase.Tags_SetTags (j : JSON) (a : BadgerDatabase) (repo : GoString)
    (tags : List Tag) (b : List (Fin 256)) (hb : j.MarshalTags tags = .ok b) :
    (BadgerDatabase.SetTags j a repo tags).2 = none ∧
      BadgerDatabase.Tags j (BadgerDatabase.SetTags j a repo tags).1 repo = unmarshal j b := by
  unfold BadgerDatabase.SetTags marshal
  rw [hb]
  refine ⟨rfl, ?_⟩
  unfold BadgerDatabase.Tags getOrEmpty
  simp only []
  rw [Txn.Get_SetEntry_same]

theorem unmarshal_of_ok (j : JSON) (b : List (Fin 256)) (tags : List Tag)
    (h : j.UnmarshalTags b = .ok tags) : unmarshal j b = .ok tags := by
  unfold unmarshal; rw [h]

/-! ## Lemmas: the codec of the examples

The codec of the examples reads back what it writes, for every tag list and every
list of names. -/

theorem readStringBody_write (s : GoString) (rest : List (Fin 256)) :
    readStringBody false (s.flatMap (fun c => if c = 34 ∨ c = 92 then [92, c] else [c]) ++
      34 :: rest) = some (s, rest) := by
  induction s with
  | nil => simp [readStringBody]
  | cons c s ih =>
    rw [List.flatMap_cons]
    by_cases h : c = 34 ∨ c = 92
    · rw [if_pos h]
      simp only [List.cons_append, List.nil_append]
      rw [readStringBody, if_neg (by decide), if_pos rfl, readStringBody, ih]
      rfl
    · rw [if_neg h]
      simp only [List.cons_append, List.nil_append]
      rw [readStringBody, if_neg (fun h' => h (Or.inl h')), if_neg (fun h' => h (Or.inr h')), ih]
      rfl

theorem readString_write (s : GoString) (rest : List (Fin 256)) :
    readString (writeString s ++ rest) = some (s, rest) := by
  unfold writeString
  simp only [List.cons_append, List.nil_append, List.append_assoc]
  rw [readString, if_pos rfl]
  exact readStringBody_write s rest

theorem readLit_append (lit rest : List (Fin 256)) :
    readLit lit (lit ++ rest) = some rest := by
  unfold readLit
  rw [if_pos (List.isPrefixOf_iff_prefix.mpr (List.prefix_append lit rest)),
    List.drop_left]

theorem readTag_write (t : Tag) (rest : List (Fin 256)) :
    readTag (writeTag t ++ rest) = some (t, rest) := by
  unfold readTag writeTag
  simp only [List.append_assoc]
  rw [readLit_append]
  simp only [readString_write, readLit_append]

theorem flatten_intersperse_map {α : Type} (enc : α → List (Fin 256))
    (sep : List (Fin 256)) (x : α) (xs : List α) :
    (((x :: xs).map enc).intersperse sep).flatten =
      enc x ++ xs.flatMap (fun y => sep ++ enc y) := by
  induction xs generalizing x with
  | nil => simp
  | cons y ys ih =>
    rw [List.map_cons, List.map_cons, List.intersperse_cons_cons, List.flatten_cons,
      List.flatten_cons, ← List.map_cons, ih, List.flatMap_cons]
    simp only [List.append_assoc]

theorem writeArray_cons {α : Type} (enc : α → List (Fin 256)) (x : α) (xs : List α) :
    writeArray ((x :: xs).map enc) =
      str "[" ++ (enc x ++ (xs.flatMap (fun y => str "," ++ enc y) ++ str "]")) := by
  unfold writeArray
  rw [flatten_intersperse_map]
  simp only [List.append_assoc]

theorem readRest_write {α : Type} (item : List (Fin 256) → Option (α × List (Fin 256)))
    (enc : α → List (Fin 256))
    (h : ∀ x rest, item (enc x ++ rest) = some (x, rest)) (xs : List α) (fuel : Nat)
    (hfuel : xs.length < fuel) :
    readRest item fuel (xs.flatMap (fun y => str "," ++ enc y) ++ str "]") = some xs := by
  induction xs generalizing fuel with
  | nil =>
    cases fuel with
    | zero => exact absurd hfuel (by simp)
    | succ fuel => simp [readRest]
  | cons x xs ih =>
    cases fuel with
    | zero => exact absurd hfuel (by simp)
    | succ fuel =>
      have hne : ¬ ((x :: xs).flatMap (fun y => str "," ++ enc y) ++ str "]" = str "]") := by
        intro heq
        have := congrArg List.head? heq
        rw [List.flatMap_cons, show str "," = [44] by decide, show str "]" = [93] by decide]
          at this
        simp only [List.cons_append, List.head?_cons, Option.some.injEq] at this
        exact absurd this (by decide)
      rw [readRest, if_neg hne, List.flatMap_cons]
      simp only [List.append_assoc]
      rw [readLit_append]
      simp only [h, ih fuel (by simpa using hfuel)]

theorem length_le_length_flatMap {α : Type} (enc : α → List (Fin 256)) (xs : List α) :
    xs.length ≤ (xs.flatMap (fun y => str "," ++ enc y)).length := by
  induction xs with
  | nil => simp
  | cons x xs ih =>
    rw [List.flatMap_cons, List.length_append, List.length_append, List.length_cons]
    have : (str ",").length = 1 := rfl
    omega

theorem readArray_write {α : Type} (item : List (Fin 256) → Option (α × List (Fin 256)))
    (enc : α → List (Fin 256))
    (h : ∀ x rest, item (enc x ++ rest) = some (x, rest))
    (hne : ∀ x, enc x ≠ []) (xs : List α) :
    readArray item (writeArray (xs.map enc)) = some xs := by
  cases xs with
  | nil => rfl
  | cons x xs =>
    rw [writeArray_cons]
    have hlen : ¬ (str "[" ++ (enc x ++ (xs.flatMap (fun y => str "," ++ enc y) ++ str "]")) =
        str "[]") := by
      intro heq
      have hl := congrArg List.length heq
      have hx : 0 < (enc x).length := List.length_pos.mpr (hne x)
      have h1 : (str "[").length = 1 := rfl
      have h2 : (str "]").length = 1 := rfl
      have h3 : (str "[]").length = 2 := rfl
      simp only [List.length_append, h1, h2, h3] at hl
      omega
    rw [readArray, if_neg hlen, readLit_append]
    simp only [h]
    rw [readRest_write item enc h xs _ (by
      have := length_le_length_flatMap enc xs
      simp only [List.length_append]
      omega)]

theorem readTag_quote (rest : List (Fin 256)) : readTag (34 :: rest) = none := by
  have hlit : str "\x7b\"name\":" = 123 :: str "\"name\":" := by decide
  have hpre : (str "\x7b\"name\":").isPrefixOf (34 :: rest) = false := by
    rw [hlit, List.isPrefixOf]
    have : ((123 : Fin 256) == 34) = false := by decide
    rw [this, Bool.false_and]
  unfold readTag readLit
  rw [hpre]
  rfl

/-- The codec of the examples gives back every tag list. -/
theorem exampleJSON_roundTrips (tags : List Tag) : JSON.RoundTrips exampleJSON tags := by
  refine ⟨writeArray (tags.map writeTag), rfl, ?_⟩
  show (match readArray readTag (writeArray (tags.map writeTag)) with
    | some tags => Except.ok tags
    | none => Except.error _) = Except.ok tags
  rw [readArray_write readTag writeTag readTag_write (fun t => by simp [writeTag, str]) tags]

/-- For the codec of the examples, the array of the names written as strings is a
legacy record of the names. -/
theorem exampleJSON_isLegacyEncoding (names : List GoString) :
    JSON.IsLegacyEncoding exampleJSON (writeArray (names.map writeString)) names := by
  refine ⟨?_, fun hne => ?_, fun hnil => ?_⟩
  · show (match readArray readString (writeArray (names.map writeString)) with
      | some names => Except.ok names
      | none => Except.error _) = Except.ok names
    rw [readArray_write readString writeString readString_write
      (fun s => by simp [writeString]) names]
  · cases names with
    | nil => exact absurd rfl hne
    | cons n names =>
      refine ⟨.new (str "json: cannot unmarshal into []database.Tag"), ?_⟩
      show (match readArray readTag (writeArray ((n :: names).map writeString)) with
        | some tags => Except.ok tags
        | none => Except.error _) = _
      have hnone : readArray readTag (writeArray ((n :: names).map writeString)) = none := by
        rw [writeArray_cons]
        have hlen : ¬ (str "[" ++ (writeString n ++
            (names.flatMap (fun y => str "," ++ writeString y) ++ str "]")) = str "[]") := by
          intro heq
          have hl := congrArg List.length heq
          have h1 : (str "[").length = 1 := rfl
          have h2 : (str "]").length = 1 := rfl
          have h3 : (str "[]").length = 2 := rfl
          simp only [List.length_append, h1, h2, h3, writeString, List.length_cons,
            List.length_nil] at hl
          omega
        rw [readArray, if_neg hlen, readLit_append]
        have : readTag (writeString n ++
            (names.flatMap (fun y => str "," ++ writeString y) ++ str "]")) = none := by
          unfold writeString
          simp only [List.cons_append, List.nil_append]
          exact readTag_quote _
        simp only [this]
      rw [hnone]
  · subst hnil
    rfl

/-! ## Lemmas: runes -/

theorem runeLen_ascii (c : Fin 256) (r : List (Fin 256)) (h : c.val < 128) :
    runeLen (c :: r) = 1 := by
  rcases r with _ | ⟨b1, _ | ⟨b2, _ | ⟨b3, r⟩⟩⟩ <;> simp [runeLen, h]

theorem runeLen_two (b0 b1 : Fin 256) (r : List (Fin 256)) (h1 : 194 ≤ b0.val)
    (h2 : b0.val < 224) (h3 : isCont b1 = true) : runeLen (b0 :: b1 :: r) = 2 := by
  have h0 : ¬ b0.val < 128 := by omega
  rcases r with _ | ⟨b2, _ | ⟨b3, r⟩⟩ <;> simp [runeLen, h0, h1, h2, h3]

theorem runeLen_three (b0 b1 b2 : Fin 256) (r : List (Fin 256)) (h1 : 224 ≤ b0.val)
    (h2 : b0.val < 240) (h3 : secondOK b0 b1 = true) (h4 : isCont b2 = true) :
    runeLen (b0 :: b1 :: b2 :: r) = 3 := by
  have h0 : ¬ b0.val < 128 := by omega
  have h0' : ¬ b0.val < 224 := by omega
  rcases r with _ | ⟨b3, r⟩ <;> simp [runeLen, h0, h0', h1, h2, h3, h4]

theorem runeLen_four (b0 b1 b2 b3 : Fin 256) (r : List (Fin 256)) (h1 : 240 ≤ b0.val)
    (h2 : b0.val < 245) (h3 : secondOK b0 b1 = true) (h4 : isCont b2 = true)
    (h5 : isCont b3 = true) : runeLen (b0 :: b1 :: b2 :: b3 :: r) = 4 := by
  have h0 : ¬ b0.val < 128 := by omega
  have h0' : ¬ b0.val < 224 := by omega
  have h0'' : ¬ b0.val < 240 := by omega
  simp [runeLen, h0, h0', h0'', h1, h2, h3, h4, h5]

/-- The shapes of a string by the size of its first rune. -/
theorem runeLen_cases (s : List (Fin 256)) :
    runeLen s = 0 ∨
    (runeLen s = 1 ∧ ∃ c r, s = c :: r ∧ c.val < 128) ∨
    (runeLen s = 2 ∧ ∃ b0 b1 r, s = b0 :: b1 :: r ∧ 194 ≤ b0.val ∧ b0.val < 224 ∧
      isCont b1 = true) ∨
    (runeLen s = 3 ∧ ∃ b0 b1 b2 r, s = b0 :: b1 :: b2 :: r ∧ 224 ≤ b0.val ∧ b0.val < 240 ∧
      secondOK b0 b1 = true ∧ isCont b2 = true) ∨
    (runeLen s = 4 ∧ ∃ b0 b1 b2 b3 r, s = b0 :: b1 :: b2 :: b3 :: r ∧ 240 ≤ b0.val ∧
      b0.val < 245 ∧ secondOK b0 b1 = true ∧ isCont b2 = true ∧ isCont b3 = true) := by
  rcases s with _ | ⟨b0, r⟩
  · exact Or.inl rfl
  · by_cases h0 : b0.val < 128
    · exact Or.inr (Or.inl ⟨runeLen_ascii b0 r h0, b0, r, rfl, h0⟩)
    · rcases r with _ | ⟨b1, r⟩
      · exact Or.inl (by simp [runeLen, h0])
      · by_cases h2 : 194 ≤ b0.val ∧ b0.val < 224 ∧ isCont b1 = true
        · exact Or.inr (Or.inr (Or.inl
            ⟨runeLen_two b0 b1 r h2.1 h2.2.1 h2.2.2, b0, b1, r, rfl, h2⟩))
        · rcases r with _ | ⟨b2, r⟩
          · exact Or.inl (by simp [runeLen, h0, h2])
          · by_cases h3 : 224 ≤ b0.val ∧ b0.val < 240 ∧ secondOK b0 b1 = true ∧
                isCont b2 = true
            · exact Or.inr (Or.inr (Or.inr (Or.inl
                ⟨runeLen_three b0 b1 b2 r h3.1 h3.2.1 h3.2.2.1 h3.2.2.2, b0, b1, b2, r, rfl,
                  h3⟩)))
            · rcases r with _ | ⟨b3, r⟩
              · exact Or.inl (by simp [runeLen, h0, h2, h3])
              · by_cases h4 : 240 ≤ b0.val ∧ b0.val < 245 ∧ secondOK b0 b1 = true ∧
                    isCont b2 = true ∧ isCont b3 = true
                · exact Or.inr (Or.inr (Or.inr (Or.inr
                    ⟨runeLen_four b0 b1 b2 b3 r h4.1 h4.2.1 h4.2.2.1 h4.2.2.2.1 h4.2.2.2.2,
                      b0, b1, b2, b3, r, rfl, h4⟩)))
                · exact Or.inl (by simp [runeLen, h0, h2, h3, h4])

/-- The size of the first rune is at most the length of the string. -/
theorem runeLen_le_length (s : List (Fin 256)) : runeLen s ≤ s.length := by
  rcases runeLen_cases s with h | ⟨h, _, _, rfl, _⟩ | ⟨h, _, _, _, rfl, _⟩ |
    ⟨h, _, _, _, _, rfl, _⟩ | ⟨h, _, _, _, _, _, rfl, _⟩ <;> rw [h] <;> simp

/-- The size of the first rune depends on the bytes of this rune only. -/
theorem runeLen_take_append (s t : List (Fin 256)) (h : runeLen s ≠ 0) :
    runeLen (s.take (runeLen s) ++ t) = runeLen s := by
  rcases runeLen_cases s with h0 | ⟨h1, c, r, rfl, hc⟩ | ⟨h2, b0, b1, r, rfl, ha, hb, hc⟩ |
    ⟨h3, b0, b1, b2, r, rfl, ha, hb, hc, hd⟩ | ⟨h4, b0, b1, b2, b3, r, rfl, ha, hb, hc, hd, he⟩
  · exact absurd h0 h
  · rw [h1]; exact runeLen_ascii c _ hc
  · rw [h2]; exact runeLen_two b0 b1 _ ha hb hc
  · rw [h3]; exact runeLen_three b0 b1 b2 _ ha hb hc hd
  · rw [h4]; exact runeLen_four b0 b1 b2 b3 _ ha hb hc hd he

/-- A string that starts with a byte from `0x80` on has a first rune of no byte (an
invalid start) or of at least two bytes. -/
theorem runeLen_ne_one (c : Fin 256) (r : List (Fin 256)) (h : ¬ c.val < 128) :
    runeLen (c :: r) ≠ 1 := by
  intro h1
  rcases runeLen_cases (c :: r) with h0 | ⟨_, c', r', heq, hc⟩ | ⟨h2, _⟩ | ⟨h3, _⟩ | ⟨h4, _⟩
  · omega
  · cases heq; exact h hc
  · omega
  · omega
  · omega

/-! ## Lemmas: strings of `encoding/json` -/

set_option maxRecDepth 100000 in
theorem parseHex4_hexDigit : ∀ c : Fin 256, c.val < 128 →
    parseHex4 [48, 48, hexDigit (c.val / 16), hexDigit (c.val % 16)] = some c.val := by
  decide

set_option maxRecDepth 100000 in
theorem encodeRune_ascii : ∀ c : Fin 256, c.val < 128 → encodeRune c.val = [c] := by
  decide

/-- A valid string is left as it is by the coercion to valid UTF-8. -/
theorem coerceRunes_of_valid (n : Nat) (s : List (Fin 256)) (h : validRunes n s = true) :
    coerceRunes n s = s := by
  induction n generalizing s with
  | zero =>
    cases s with
    | nil => rfl
    | cons c r => simp [validRunes] at h
  | succ n ih =>
    cases s with
    | nil => rfl
    | cons c r =>
      rw [validRunes] at h
      by_cases h0 : runeLen (c :: r) = 0
      · rw [if_pos h0] at h
        cases h
      · rw [if_neg h0] at h
        rw [coerceRunes, if_neg h0, ih _ h, List.take_append_drop]

theorem toValidUTF8_of_valid (s : GoString) (h : utf8Valid s = true) : toValidUTF8 s = s :=
  coerceRunes_of_valid s.length s h

/-- A `\u` escape of a rune that is no high surrogate is read as the encoding of the
rune. -/
theorem readEscape_u (h4 t : List (Fin 256)) (n : Nat) (hp : parseHex4 h4 = some n)
    (hlen : h4.length = 4) (hn : n < 55296 ∨ 56320 ≤ n) :
    readEscape (117 :: (h4 ++ t)) = some (encodeRune n, t) := by
  have htake : List.take 4 (117 :: (h4 ++ t)).tail = h4 := by
    rw [List.tail_cons]; exact List.take_left' hlen
  have hdrop : List.drop 5 (117 :: (h4 ++ t)) = t := by
    rw [List.drop_succ_cons]; exact List.drop_left' hlen
  have hhead : (117 :: (h4 ++ t)).head? = some 117 := rfl
  have hlow : ¬ (55296 ≤ n ∧ n < 56320 ∧
      List.take 2 (List.drop 5 (117 :: (h4 ++ t))) = [92, 117]) := by
    intro h; omega
  rw [hdrop] at hlow
  unfold readEscape
  rw [if_pos hhead, htake, hp]
  simp only [hdrop]
  rw [if_neg hlow]

/-- What `Unmarshal` reads back from the text `Marshal` writes for a byte below
`0x80`: the byte. -/
theorem readElement_escapeByte (c : Fin 256) (t : List (Fin 256)) (hc : c.val < 128) :
    readElement (escapeByte c ++ t) = some ([c], t) ∧
      (escapeByte c ++ t).head? ≠ some 34 ∧ 1 ≤ (escapeByte c).length := by
  unfold escapeByte
  by_cases h1 : c = 34
  · subst h1; exact ⟨rfl, fun h => (by cases h), by decide⟩
  by_cases h2 : c = 92
  · subst h2; exact ⟨rfl, fun h => (by cases h), by decide⟩
  by_cases h3 : c = 10
  · subst h3; exact ⟨rfl, fun h => (by cases h), by decide⟩
  by_cases h4 : c = 13
  · subst h4; exact ⟨rfl, fun h => (by cases h), by decide⟩
  by_cases h5 : c = 9
  · subst h5; exact ⟨rfl, fun h => (by cases h), by decide⟩
  rw [if_neg h1, if_neg h2, if_neg h3, if_neg h4, if_neg h5]
  by_cases h6 : c.val < 32 ∨ c = 60 ∨ c = 62 ∨ c = 38
  · rw [if_pos h6]
    refine ⟨?_, by simp, by simp⟩
    have h := readEscape_u [48, 48, hexDigit (c.val / 16), hexDigit (c.val % 16)] t c.val
      (parseHex4_hexDigit c hc) rfl (Or.inl (by omega))
    rw [encodeRune_ascii c hc] at h
    exact h
  · rw [if_neg h6]
    have h32 : ¬ c.val < 32 := fun h => h6 (Or.inl h)
    refine ⟨?_, ?_, by simp⟩
    · show readElement (c :: t) = _
      rw [readElement, if_neg h2, if_neg h32, runeLen_ascii c t hc]
      rfl
    · show (c :: t).head? ≠ some 34
      simp [h1]

theorem take_three_eq (c x y z : Fin 256) (rest : List (Fin 256))
    (h : (c :: rest).take 3 = [x, y, z]) : ∃ r, c :: rest = x :: y :: z :: r := by
  rcases rest with _ | ⟨p, _ | ⟨q, r⟩⟩
  · simp at h
  · simp at h
  · simp only [List.take_succ_cons, List.take_zero, List.cons.injEq, and_true] at h
    obtain ⟨rfl, rfl, rfl⟩ := h
    exact ⟨r, rfl⟩

/-- One step of `Unmarshal` on the text of one step of `Marshal`: the first rune of
the string, or the replacement rune when the first byte starts no valid encoding;
both go on with the same rest of the string. -/
theorem readElement_writeElement (c : Fin 256) (rest t : List (Fin 256)) :
    readElement ((writeElement (c :: rest)).1 ++ t) =
      some (if runeLen (c :: rest) = 0 then replacementRune
        else (c :: rest).take (runeLen (c :: rest)), t) ∧
    (writeElement (c :: rest)).2 =
      (if runeLen (c :: rest) = 0 then rest else (c :: rest).drop (runeLen (c :: rest))) ∧
    ((writeElement (c :: rest)).1 ++ t).head? ≠ some 34 ∧
    1 ≤ ((writeElement (c :: rest)).1).length := by
  by_cases hc : c.val < 128
  · have hlen := runeLen_ascii c rest hc
    have hw : writeElement (c :: rest) = (escapeByte c, rest) := by
      rw [writeElement, if_pos hc]
    have he := readElement_escapeByte c t hc
    rw [hw, hlen]
    exact ⟨he.1, rfl, he.2.1, he.2.2⟩
  · by_cases h0 : runeLen (c :: rest) = 0
    · have hw : writeElement (c :: rest) = (str "\\ufffd", rest) := by
        rw [writeElement, if_neg hc, if_pos h0]
      rw [hw, if_pos h0, if_pos h0]
      refine ⟨?_, rfl, fun h => (by cases h), Nat.le_of_ble_eq_true rfl⟩
      exact readEscape_u [102, 102, 102, 100] t 65533 (by decide) rfl (Or.inr (by omega))
    · rw [if_neg h0, if_neg h0]
      by_cases h28 : (c :: rest).take 3 = [226, 128, 168]
      · obtain ⟨r, hr⟩ := take_three_eq c 226 128 168 rest h28
        have hlen : runeLen (c :: rest) = 3 := by
          rw [hr]; exact runeLen_three 226 128 168 r (by decide) (by decide) (by decide)
            (by decide)
        have hw : writeElement (c :: rest) = (str "\\u2028", (c :: rest).drop 3) := by
          rw [writeElement, if_neg hc, if_neg h0, if_pos h28]
        rw [hw, hlen, h28]
        refine ⟨?_, rfl, fun h => (by cases h), Nat.le_of_ble_eq_true rfl⟩
        exact readEscape_u [50, 48, 50, 56] t 8232 (by decide) rfl (Or.inl (by omega))
      · by_cases h29 : (c :: rest).take 3 = [226, 128, 169]
        · obtain ⟨r, hr⟩ := take_three_eq c 226 128 169 rest h29
          have hlen : runeLen (c :: rest) = 3 := by
            rw [hr]; exact runeLen_three 226 128 169 r (by decide) (by decide) (by decide)
              (by decide)
          have hw : writeElement (c :: rest) = (str "\\u2029", (c :: rest).drop 3) := by
            rw [writeElement, if_neg hc, if_neg h0, if_neg h28, if_pos h29]
          rw [hw, hlen, h29]
          refine ⟨?_, rfl, fun h => (by cases h), Nat.le_of_ble_eq_true rfl⟩
          exact readEscape_u [50, 48, 50, 57] t 8233 (by decide) rfl (Or.inl (by omega))
        · have hw : writeElement (c :: rest) =
              ((c :: rest).take (runeLen (c :: rest)), (c :: rest).drop (runeLen (c :: rest))) := by
            rw [writeElement, if_neg hc, if_neg h0, if_neg h28, if_neg h29]
          rw [hw]
          have hk : (List.take (runeLen (c :: rest)) (c :: rest)).length = runeLen (c :: rest) :=
            List.length_take_of_le (runeLen_le_length _)
          obtain ⟨k, hk1⟩ : ∃ k, runeLen (c :: rest) = k + 1 :=
            Nat.exists_eq_succ_of_ne_zero h0
          have htake : List.take (runeLen (c :: rest)) (c :: rest) =
              c :: List.take k rest := by rw [hk1, List.take_succ_cons]
          have h92 : ¬ c = 92 := fun h => hc (by rw [h]; decide)
          have h32 : ¬ c.val < 32 := fun h => hc (by omega)
          refine ⟨?_, rfl, ?_, by rw [hk]; omega⟩
          · have hpre := runeLen_take_append (c :: rest) t h0
            rw [htake] at hpre hk
            simp only [htake, List.cons_append]
            rw [List.cons_append] at hpre
            rw [readElement, if_neg h92, if_neg h32, hpre, if_neg h0]
            rw [show c :: (List.take k rest ++ t) = (c :: List.take k rest) ++ t from rfl,
              List.take_left' hk, List.drop_left' hk]
          · rw [htake]
            intro h
            simp only [List.cons_append, List.head?_cons, Option.some.injEq] at h
            exact hc (by rw [h]; decide)

/-- What `Unmarshal` reads back from the text `Marshal` writes for a string: the
string coerced to valid UTF-8. -/
theorem readElements_writeElements (n : Nat) (s t : List (Fin 256)) (fuel : Nat)
    (hn : s.length ≤ n) (hf : (writeElements n s).length + 1 ≤ fuel) :
    readElements fuel (writeElements n s ++ 34 :: t) = some (coerceRunes n s, t) := by
  induction n generalizing s fuel with
  | zero =>
    cases s with
    | nil =>
      obtain ⟨f, rfl⟩ : ∃ f, fuel = f + 1 := ⟨fuel - 1, by omega⟩
      rfl
    | cons c r => simp at hn
  | succ n ih =>
    cases s with
    | nil =>
      obtain ⟨f, rfl⟩ : ∃ f, fuel = f + 1 := ⟨fuel - 1, by omega⟩
      rfl
    | cons c rest =>
      obtain ⟨f, rfl⟩ : ∃ f, fuel = f + 1 := ⟨fuel - 1, by omega⟩
      obtain ⟨h1, h2, h3, h4⟩ := readElement_writeElement c rest
        (writeElements n (writeElement (c :: rest)).2 ++ 34 :: t)
      have hlen2 : (writeElement (c :: rest)).2.length ≤ n := by
        rw [h2]
        by_cases h0 : runeLen (c :: rest) = 0
        · rw [if_pos h0]; simpa using hn
        · rw [if_neg h0, List.length_drop]
          simp only [List.length_cons] at hn ⊢
          omega
      have hfuel : (writeElements n (writeElement (c :: rest)).2).length + 1 ≤ f := by
        rw [writeElements, List.length_append] at hf
        omega
      have hih := ih (writeElement (c :: rest)).2 f hlen2 hfuel
      rw [writeElements, List.append_assoc, readElements, if_neg h3, h1]
      simp only [hih]
      rw [coerceRunes, h2]
      by_cases h0 : runeLen (c :: rest) = 0
      · simp only [h0, if_true]
      · simp only [h0, if_false]

/-- A string that `Marshal` wrote is read by `Unmarshal` as the string coerced to
valid UTF-8. -/
theorem readGoString_write (s : GoString) (t : List (Fin 256)) :
    readGoString (writeGoString s ++ t) = some (toValidUTF8 s, t) := by
  unfold readGoString writeGoString toValidUTF8
  simp only [List.cons_append, List.nil_append, List.append_assoc, List.head?_cons,
    List.tail_cons, if_true]
  exact readElements_writeElements s.length s t _ (le_refl _)
    (by simp only [List.length_cons, List.length_append]; omega)

/-- The coercion to valid UTF-8 of a tag: of its name and of its digest. -/
theorem readGoTag_write (tag : Tag) (t : List (Fin 256)) :
    readGoTag (writeGoTag tag ++ t) =
      some ({ Name := toValidUTF8 tag.Name, Digest := toValidUTF8 tag.Digest }, t) := by
  unfold readGoTag writeGoTag
  simp only [List.append_assoc]
  rw [readLit_append]
  simp only [readGoString_write, readLit_append]

/-! ## Lemmas: records of `encoding/json` -/

theorem readRest_write_map {α β : Type}
    (item : List (Fin 256) → Option (β × List (Fin 256))) (enc : α → List (Fin 256))
    (g : α → β) (h : ∀ x rest, item (enc x ++ rest) = some (g x, rest)) (xs : List α)
    (fuel : Nat) (hfuel : xs.length < fuel) :
    readRest item fuel (xs.flatMap (fun y => str "," ++ enc y) ++ str "]") =
      some (xs.map g) := by
  induction xs generalizing fuel with
  | nil =>
    cases fuel with
    | zero => exact absurd hfuel (by simp)
    | succ fuel => simp [readRest]
  | cons x xs ih =>
    cases fuel with
    | zero => exact absurd hfuel (by simp)
    | succ fuel =>
      have hne : ¬ ((x :: xs).flatMap (fun y => str "," ++ enc y) ++ str "]" = str "]") := by
        intro heq
        have := congrArg List.head? heq
        rw [List.flatMap_cons, show str "," = [44] by decide, show str "]" = [93] by decide]
          at this
        simp only [List.cons_append, List.head?_cons, Option.some.injEq] at this
        exact absurd this (by decide)
      rw [readRest, if_neg hne, List.flatMap_cons]
      simp only [List.append_assoc]
      rw [readLit_append]
      simp only [h, ih fuel (by simpa using hfuel), List.map_cons]

theorem readArray_write_map {α β : Type}
    (item : List (Fin 256) → Option (β × List (Fin 256))) (enc : α → List (Fin 256))
    (g : α → β) (h : ∀ x rest, item (enc x ++ rest) = some (g x, rest))
    (hne : ∀ x, enc x ≠ []) (xs : List α) :
    readArray item (writeArray (xs.map enc)) = some (xs.map g) := by
  cases xs with
  | nil => rfl
  | cons x xs =>
    rw [writeArray_cons]
    have hlen : ¬ (str "[" ++ (enc x ++ (xs.flatMap (fun y => str "," ++ enc y) ++ str "]")) =
        str "[]") := by
      intro heq
      have hl := congrArg List.length heq
      have hx : 0 < (enc x).length := List.length_pos.mpr (hne x)
      have h1 : (str "[").length = 1 := rfl
      have h2 : (str "]").length = 1 := rfl
      have h3 : (str "[]").length = 2 := rfl
      simp only [List.length_append, h1, h2, h3] at hl
      omega
    rw [readArray, if_neg hlen, readLit_append]
    simp only [h]
    rw [readRest_write_map item enc g h xs _ (by
      have := length_le_length_flatMap enc xs
      simp only [List.length_append]
      omega)]
    rfl

theorem writeArray_ne_null (items : List (List (Fin 256))) : writeArray items ≠ str "null" := by
  intro h
  have := congrArg List.head? h
  unfold writeArray at this
  rw [show str "[" = [91] by decide, show str "null" = [110, 117, 108, 108] by decide] at this
  simp only [List.cons_append, List.head?_cons, Option.some.injEq] at this
  exact absurd this (by decide)

/-- The coercion of a tag to valid UTF-8, as a round trip through `encoding/json`
performs it. -/
theorem goJSON_unmarshal_marshal (tags : List Tag) :
    goJSON.UnmarshalTags (writeArray (tags.map writeGoTag)) =
      .ok (tags.map (fun t =>
        { Name := toValidUTF8 t.Name, Digest := toValidUTF8 t.Digest })) := by
  show (if writeArray (tags.map writeGoTag) = str "null" then Except.ok []
    else match readArray readGoTag (writeArray (tags.map writeGoTag)) with
      | some tags => Except.ok tags
      | none => Except.error _) = _
  rw [if_neg (writeArray_ne_null _),
    readArray_write_map readGoTag writeGoTag _ readGoTag_write
      (fun t => by simp [writeGoTag, str]) tags]

/-- A legacy record read as a list of strings: the names coerced to valid UTF-8. -/
theorem goJSON_unmarshalStrings (names : List GoString) :
    goJSON.UnmarshalStrings (goMarshalStrings names) = .ok (names.map toValidUTF8) := by
  show (if goMarshalStrings names = str "null" then Except.ok []
    else match readArray readGoString (goMarshalStrings names) with
      | some names => Except.ok names
      | none => Except.error _) = _
  unfold goMarshalStrings
  rw [if_neg (writeArray_ne_null _),
    readArray_write_map readGoString writeGoString _ readGoString_write
      (fun s => by simp [writeGoString]) names]

theorem readGoTag_quote (rest : List (Fin 256)) : readGoTag (34 :: rest) = none := by
  have hlit : str "\x7b\"name\":" = 123 :: str "\"name\":" := by decide
  have hpre : (str "\x7b\"name\":").isPrefixOf (34 :: rest) = false := by
    rw [hlit, List.isPrefixOf]
    have : ((123 : Fin 256) == 34) = false := by decide
    rw [this, Bool.false_and]
  unfold readGoTag readLit
  rw [hpre]
  rfl

/-- A legacy record with at least one name is no current-format record: read as a
list of tags it gives an error; the empty legacy record gives the empty list. -/
theorem goJSON_unmarshalTags_legacy (names : List GoString) :
    (names ≠ [] → goJSON.UnmarshalTags (goMarshalStrings names) =
      .error (.new (str "json: cannot unmarshal into Go value of type []database.Tag"))) ∧
    (names = [] → goJSON.UnmarshalTags (goMarshalStrings names) = .ok []) := by
  constructor
  · intro hne
    cases names with
    | nil => exact absurd rfl hne
    | cons n names =>
      show (if goMarshalStrings (n :: names) = str "null" then Except.ok []
        else match readArray readGoTag (goMarshalStrings (n :: names)) with
          | some tags => Except.ok tags
          | none => Except.error _) = _
      have hnone : readArray readGoTag (goMarshalStrings (n :: names)) = none := by
        unfold goMarshalStrings
        rw [writeArray_cons]
        have hlen : ¬ (str "[" ++ (writeGoString n ++
            (names.flatMap (fun y => str "," ++ writeGoString y) ++ str "]")) = str "[]") := by
          intro heq
          have hl := congrArg List.length heq
          have h1 : (str "[").length = 1 := rfl
          have h2 : (str "]").length = 1 := rfl
          have h3 : (str "[]").length = 2 := rfl
          simp only [List.length_append, h1, h2, h3, writeGoString, List.length_cons,
            List.length_nil] at hl
          omega
        rw [readArray, if_neg hlen, readLit_append]
        have : readGoTag (writeGoString n ++
            (names.flatMap (fun y => str "," ++ writeGoString y) ++ str "]")) = none := by
          unfold writeGoString
          simp only [List.cons_append, List.nil_append]
          exact readGoTag_quote _
        simp only [this]
      rw [if_neg (show goMarshalStrings (n :: names) ≠ str "null" from writeArray_ne_null _),
        hnone]
  · intro hnil
    subst hnil
    rfl

/-- For every codec: when the codec gives back a tag list, `SetTags` followed by
`Tags` returns the list, whatever was stored for the repository before. -/
theorem BadgerDatabase.SetTags_Tags_of_roundTrips (j : JSON) (a : BadgerDatabase)
    (repo : GoString) (tags : List Tag) (h : JSON.RoundTrips j tags) :
    (BadgerDatabase.SetTags j a repo tags).2 = none ∧
    BadgerDatabase.Tags j (BadgerDatabase.SetTags j a repo tags).1 repo = .ok tags ∧
    ∀ tags1 : List Tag,
      BadgerDatabase.Tags j
        (BadgerDatabase.SetTags j (BadgerDatabase.SetTags j a repo tags1).1 repo tags).1
        repo = .ok tags := by
  obtain ⟨b, hm, hu⟩ := h
  refine ⟨(BadgerDatabase.Tags_SetTags j a repo tags b hm).1, ?_, fun tags1 => ?_⟩
  · rw [(BadgerDatabase.Tags_SetTags j a repo tags b hm).2]
    exact unmarshal_of_ok j b tags hu
  · rw [(BadgerDatabase.Tags_SetTags j _ repo tags b hm).2]
    exact unmarshal_of_ok j b tags hu

/-- For every codec: `unmarshal` of a legacy record gives one tag per name, with an
empty digest, and the same as `unmarshal` of the current-format record of these tags
when the codec gives them back. -/
theorem unmarshal_of_isLegacyEncoding (j : JSON) (names : List GoString) (b : List (Fin 256))
    (hb : JSON.IsLegacyEncoding j b names)
    (hr : JSON.RoundTrips j (names.map (fun n => { Name := n, Digest := str "" }))) :
    unmarshal j b = .ok (names.map (fun n => { Name := n, Digest := str "" })) ∧
    ∃ b', marshal j (names.map (fun n => { Name := n, Digest := str "" })) = .ok b' ∧
      unmarshal j b = unmarshal j b' := by
  have h1 : unmarshal j b = .ok (names.map (fun n => { Name := n, Digest := str "" })) := by
    unfold unmarshal
    by_cases hn : names = []
    · rw [hb.2.2 hn, hn]; rfl
    · obtain ⟨e, he⟩ := hb.2.1 hn
      rw [he]
      simp only [hb.1]
  obtain ⟨b', hm, hu⟩ := hr
  exact ⟨h1, b', hm, by rw [h1, unmarshal_of_ok j b' _ hu]⟩

/-- A list of tags with valid names and digests is left as it is by the coercion of
its strings to valid UTF-8. -/
theorem map_toValidUTF8_of_valid (tags : List Tag)
    (h : ∀ t ∈ tags, utf8Valid t.Name = true ∧ utf8Valid t.Digest = true) :
    tags.map (fun t => ({ Name := toValidUTF8 t.Name, Digest := toValidUTF8 t.Digest } : Tag)) =
      tags := by
  induction tags with
  | nil => rfl
  | cons t tags ih =>
    have ht := h t (List.mem_cons_self _ _)
    rw [List.map_cons, ih (fun u hu => h u (List.mem_cons_of_mem _ hu)),
      toValidUTF8_of_valid _ ht.1, toValidUTF8_of_valid _ ht.2]

/-- With Go's `encoding/json`, `Tags` right after `SetTags` returns the tags with
their names and digests coerced to valid UTF-8. -/
theorem BadgerDatabase.Tags_SetTags_goJSON (a : BadgerDatabase) (repo : GoString)
    (tags : List Tag) :
    (BadgerDatabase.SetTags goJSON a repo tags).2 = none ∧
    BadgerDatabase.Tags goJSON (BadgerDatabase.SetTags goJSON a repo tags).1 repo =
      .ok (tags.map (fun t =>
        { Name := toValidUTF8 t.Name, Digest := toValidUTF8 t.Digest })) := by
  have h := BadgerDatabase.Tags_SetTags goJSON a repo tags (writeArray (tags.map writeGoTag)) rfl
  exact ⟨h.1, by rw [h.2]; exact unmarshal_of_ok goJSON _ _ (goJSON_unmarshal_marshal tags)⟩

/-- With Go's `encoding/json`, `unmarshal` of the legacy record of a list of names
gives one tag per name, with the name coerced to valid UTF-8 and an empty digest. -/
theorem unmarshal_goMarshalStrings (names : List GoString) :
    unmarshal goJSON (goMarshalStrings names) =
      .ok (names.map (fun n => { Name := toValidUTF8 n, Digest := str "" })) := by
  by_cases hn : names = []
  · exact unmarshal_of_ok goJSON _ _ (by
      rw [(goJSON_unmarshalTags_legacy names).2 hn, hn]; rfl)
  · unfold unmarshal
    rw [(goJSON_unmarshalTags_legacy names).1 hn]
    simp only [goJSON_unmarshalStrings, List.map_map]
    rfl

/-! ## Lemmas: last occurrences and the names of `Items()` -/

theorem findLast_eq_none {q : Tag → Bool} {l : List Tag} (h : ∀ t ∈ l, q t = false) :
    findLast q l = none := by
  unfold findLast
  rw [List.find?_eq_none]
  intro t ht
  rw [h t (List.mem_reverse.mp ht)]
  exact Bool.false_ne_true

theorem findLast_append_cons {q : Tag → Bool} (front back : List Tag) (u : Tag)
    (hu : q u = true) (hback : ∀ v ∈ back, q v = false) :
    findLast q (front ++ u :: back) = some u := by
  unfold findLast
  rw [List.reverse_append, List.reverse_cons, List.append_assoc, List.find?_append]
  have hnone : back.reverse.find? q = none := findLast_eq_none hback
  rw [hnone]
  simp [List.find?_cons, hu]

/-- The names of the elements of `Items()` after `Apply` are pairwise distinct. -/
theorem RegexFilter.Items_names_nodup (f : RegexFilter) (list : List Tag) :
    ((RegexFilter.Items (RegexFilter.Apply f list)).map (fun t => t.Name)).Nodup := by
  have h := RegexFilter.Apply_nodup f list
  unfold RegexFilter.Items
  rw [List.map_map]
  exact h

theorem filter_name_eq_singleton (l : List Tag) (hnd : (l.map (fun t => t.Name)).Nodup)
    (t : Tag) (ht : t ∈ l) : l.filter (fun x => decide (x.Name = t.Name)) = [t] := by
  induction l with
  | nil => exact absurd ht (List.not_mem_nil t)
  | cons x l ih =>
    rw [List.map_cons, List.nodup_cons] at hnd
    by_cases hx : x.Name = t.Name
    · have hxt : t = x := by
        rcases List.mem_cons.mp ht with h | h
        · exact h
        · exact absurd (List.mem_map.mpr ⟨t, h, hx.symm⟩) hnd.1
      subst hxt
      rw [List.filter_cons_of_pos (by simp)]
      congr 1
      rw [List.filter_eq_nil_iff]
      intro y hy hyn
      exact hnd.1 (List.mem_map.mpr ⟨y, hy, by simpa using hyn⟩)
    · rw [List.filter_cons_of_neg (by simpa using hx)]
      rcases List.mem_cons.mp ht with h | h
      · exact absurd (h ▸ rfl) hx
      · exact ih hnd.2 h

/-- A name that no matching item gives is not a key of the map built by `Apply`. -/
theorem RegexFilter.Apply_lookup_none (f : RegexFilter) (list : List Tag) (name : GoString)
    (h : ∀ u ∈ list, RegexFilter.isMatch f u.Name = true →
      RegexFilter.outputName f u.Name ≠ name) :
    GoMap.lookup (RegexFilter.Apply f list).filtered name = none := by
  rw [RegexFilter.Apply_lookup]
  apply findLast_eq_none
  intro u hu
  by_cases hm : RegexFilter.isMatch f u.Name = true
  · simp [hm, h u hu hm]
  · simp [hm]

/-! ## Lemmas: the Numerical policy -/

/-- The reduction of `Numerical.Latest` from a retained candidate: it ends on one of
the candidates, of extreme value in the direction of the order. -/
theorem Numerical.foldl_step_some (p : Numerical) (cs : List (ℚ × Tag)) (b : ℚ × Tag) :
    ∃ b', cs.foldl (Numerical.step p) (some b) = some b' ∧ b' ∈ b :: cs ∧
      (if p.Order = str "DESC" then ∀ c ∈ b :: cs, b'.1 ≤ c.1
       else ∀ c ∈ b :: cs, c.1 ≤ b'.1) := by
  induction cs generalizing b with
  | nil =>
    refine ⟨b, rfl, List.mem_singleton.mpr rfl, ?_⟩
    split <;> intro c hc <;> rw [List.mem_singleton.mp hc]
  | cons c cs ih =>
    rw [List.foldl_cons]
    by_cases hd : p.Order = str "DESC"
    · simp only [Numerical.step, hd, if_true]
      by_cases hlt : c.1 < b.1
      · rw [if_pos hlt]
        obtain ⟨b', h1, h2, h3⟩ := ih c
        rw [if_pos hd] at h3
        refine ⟨b', h1, List.mem_cons_of_mem _ h2, ?_⟩
        intro x hx
        rcases List.mem_cons.mp hx with hx | hx
        · rw [hx]; exact le_trans (h3 c (List.mem_cons_self _ _)) (le_of_lt hlt)
        · exact h3 x hx
      · rw [if_neg hlt]
        obtain ⟨b', h1, h2, h3⟩ := ih b
        rw [if_pos hd] at h3
        refine ⟨b', h1, ?_, ?_⟩
        · rcases List.mem_cons.mp h2 with h | h
          · exact h ▸ List.mem_cons_self _ _
          · exact List.mem_cons_of_mem _ (List.mem_cons_of_mem _ h)
        · intro x hx
          rcases List.mem_cons.mp hx with hx | hx
          · rw [hx]; exact h3 b (List.mem_cons_self _ _)
          · rcases List.mem_cons.mp hx with hx | hx
            · rw [hx]
              exact le_trans (h3 b (List.mem_cons_self _ _)) (not_lt.mp hlt)
            · exact h3 x (List.mem_cons_of_mem _ hx)
    · simp only [Numerical.step, hd, if_false]
      by_cases hlt : b.1 < c.1
      · rw [if_pos hlt]
        obtain ⟨b', h1, h2, h3⟩ := ih c
        rw [if_neg hd] at h3
        refine ⟨b', h1, List.mem_cons_of_mem _ h2, ?_⟩
        intro x hx
        rcases List.mem_cons.mp hx with hx | hx
        · rw [hx]; exact le_trans (le_of_lt hlt) (h3 c (List.mem_cons_self _ _))
        · exact h3 x hx
      · rw [if_neg hlt]
        obtain ⟨b', h1, h2, h3⟩ := ih b
        rw [if_neg hd] at h3
        refine ⟨b', h1, ?_, ?_⟩
        · rcases List.mem_cons.mp h2 with h | h
          · exact h ▸ List.mem_cons_self _ _
          · exact List.mem_cons_of_mem _ (List.mem_cons_of_mem _ h)
        · intro x hx
          rcases List.mem_cons.mp hx with hx | hx
          · rw [hx]; exact h3 b (List.mem_cons_self _ _)
          · rcases List.mem_cons.mp hx with hx | hx
            · rw [hx]
              exact le_trans (not_lt.mp hlt) (h3 b (List.mem_cons_self _ _))
            · exact h3 x (List.mem_cons_of_mem _ hx)

theorem Numerical.mem_parsed (parse : GoString → Option ℚ) (versions : List Tag)
    (c : ℚ × Tag) :
    c ∈ versions.filterMap (fun t => (parse t.Name).map (fun v => (v, t))) ↔
      c.2 ∈ versions ∧ parse c.2.Name = some c.1 := by
  rw [List.mem_filterMap]
  constructor
  · rintro ⟨t, ht, hc⟩
    cases hp : parse t.Name with
    | none => rw [hp] at hc; cases hc
    | some v =>
      rw [hp] at hc
      simp only [Option.map_some', Option.some.injEq] at hc
      rw [← hc]
      exact ⟨ht, hp⟩
  · rintro ⟨ht, hp⟩
    exact ⟨c.2, ht, by rw [hp]; rfl⟩

/-- What `Numerical.Latest` computes on a non-empty list of numeric names: an
element of the list of extreme value in the direction of the order. -/
theorem Numerical.Latest_numeric_spec (parse : GoString → Option ℚ) (p : Numerical)
    (versions : List Tag) (hne : versions ≠ [])
    (hnum : ∀ t ∈ versions, ∃ v, parse t.Name = some v) :
    ∃ r v, Numerical.Latest parse p versions = .ok r ∧ r ∈ versions ∧
      parse r.Name = some v ∧
      (if p.Order = str "DESC" then ∀ t ∈ versions, ∀ w, parse t.Name = some w → v ≤ w
       else ∀ t ∈ versions, ∀ w, parse t.Name = some w → w ≤ v) := by
  have hlen : ¬ versions.length = 0 := by simpa using hne
  have hfind : versions.find? (fun t => (parse t.Name).isNone) = none := by
    rw [List.find?_eq_none]
    intro t ht
    obtain ⟨v, hv⟩ := hnum t ht
    simp [hv]
  unfold Numerical.Latest
  rw [if_neg hlen, hfind]
  simp only []
  cases hcs : versions.filterMap (fun t => (parse t.Name).map (fun v => (v, t))) with
  | nil =>
    obtain ⟨t, ht⟩ := List.exists_mem_of_ne_nil versions hne
    obtain ⟨v, hv⟩ := hnum t ht
    have : (v, t) ∈ versions.filterMap (fun t => (parse t.Name).map (fun v => (v, t))) :=
      (Numerical.mem_parsed parse versions (v, t)).mpr ⟨ht, hv⟩
    rw [hcs] at this
    exact absurd this (List.not_mem_nil _)
  | cons c cs =>
    rw [List.foldl_cons]
    obtain ⟨b', h1, h2, h3⟩ := Numerical.foldl_step_some p cs c
    have hstep : Numerical.step p none c = some c := rfl
    rw [hstep, h1]
    rw [← hcs] at h2 h3
    have hb := (Numerical.mem_parsed parse versions b').mp h2
    refine ⟨b'.2, b'.1, rfl, hb.1, hb.2, ?_⟩
    by_cases hd : p.Order = str "DESC"
    · rw [if_pos hd] at h3 ⊢
      exact fun t ht w hw => h3 (w, t) ((Numerical.mem_parsed parse versions (w, t)).mpr ⟨ht, hw⟩)
    · rw [if_neg hd] at h3 ⊢
      exact fun t ht w hw => h3 (w, t) ((Numerical.mem_parsed parse versions (w, t)).mpr ⟨ht, hw⟩)

/-! ## Lemmas: the SemVer policy -/

theorem SemVer.mem_candidates {V : Type} (parse : GoString → Option V) (p : SemVer V)
    (versions : List Tag) (c : V × Tag) :
    c ∈ SemVer.candidates parse p versions ↔
      c.2 ∈ versions ∧ parse (stripV c.2.Name) = some c.1 ∧ p.Range c.1 = true := by
  unfold SemVer.candidates
  rw [List.mem_filterMap]
  constructor
  · rintro ⟨t, ht, hc⟩
    cases hp : parse (stripV t.Name) with
    | none => rw [hp] at hc; cases hc
    | some v =>
      rw [hp] at hc
      by_cases hr : p.Range v = true
      · simp only [hr, if_true, Option.some.injEq] at hc
        rw [← hc]
        exact ⟨ht, hp, hr⟩
      · simp only [hr, if_false] at hc
        cases hc
  · rintro ⟨ht, hp, hr⟩
    exact ⟨c.2, ht, by rw [hp]; simp [hr]⟩

/-- The reduction of `SemVer.Latest`: it ends on one of the candidates, which is the
first one or above it, and no candidate has a higher precedence, when `less` is
irreflexive and transitive. -/
theorem SemVer.foldl_max {V : Type} (less : V → V → Bool)
    (hirr : ∀ a, less a a = false)
    (htrans : ∀ a b c, less a b = true → less b c = true → less a c = true)
    (cs : List (V × Tag)) (b r : V × Tag)
    (hr : cs.foldl (fun best c => if less best.1 c.1 then c else best) b = r) :
    r ∈ b :: cs ∧ (r = b ∨ less b.1 r.1 = true) ∧ ∀ c ∈ b :: cs, less r.1 c.1 = false := by
  induction cs generalizing b with
  | nil =>
    subst hr
    refine ⟨List.mem_singleton.mpr rfl, Or.inl rfl, fun c hc => ?_⟩
    rw [List.mem_singleton.mp hc]
    exact hirr _
  | cons c cs ih =>
    rw [List.foldl_cons] at hr
    by_cases hlt : less b.1 c.1 = true
    · rw [if_pos hlt] at hr
      obtain ⟨h1, h2, h3⟩ := ih c hr
      have hbr : less b.1 r.1 = true := by
        rcases h2 with h | h
        · rw [h]; exact hlt
        · exact htrans _ _ _ hlt h
      refine ⟨List.mem_cons_of_mem _ h1, Or.inr hbr, fun x hx => ?_⟩
      rcases List.mem_cons.mp hx with hx | hx
      · rw [hx]
        cases hres : less r.1 b.1
        · rfl
        · have := htrans _ _ _ hbr hres
          rw [hirr] at this
          cases this
      · exact h3 x hx
    · rw [if_neg hlt] at hr
      obtain ⟨h1, h2, h3⟩ := ih b hr
      refine ⟨?_, h2, fun x hx => ?_⟩
      · rcases List.mem_cons.mp h1 with h | h
        · rw [h]; exact List.mem_cons_self _ _
        · exact List.mem_cons_of_mem _ (List.mem_cons_of_mem _ h)
      · rcases List.mem_cons.mp hx with hx | hx
        · rw [hx]; exact h3 b (List.mem_cons_self _ _)
        · rcases List.mem_cons.mp hx with hx | hx
          · rw [hx]
            cases hres : less r.1 c.1
            · rfl
            · exfalso
              rcases h2 with h | h
              · rw [h] at hres; exact hlt hres
              · exact hlt (htrans _ _ _ h hres)
          · exact h3 x (List.mem_cons_of_mem _ hx)

/-- What `SemVer.Latest` computes when a tag parses and satisfies the range: a
candidate such that no candidate has a higher precedence. -/
theorem SemVer.Latest_candidate_spec {V : Type} (parse : GoString → Option V) (less : V → V → Bool)
    (p : SemVer V) (versions : List Tag)
    (hirr : ∀ a, less a a = false)
    (htrans : ∀ a b c, less a b = true → less b c = true → less a c = true)
    (h : ∃ t ∈ versions, ∃ v, parse (stripV t.Name) = some v ∧ p.Range v = true) :
    ∃ r vr, SemVer.Latest parse less p versions = .ok r ∧ r ∈ versions ∧
      parse (stripV r.Name) = some vr ∧ p.Range vr = true ∧
      ∀ t ∈ versions, ∀ v, parse (stripV t.Name) = some v → p.Range v = true →
        less vr v = false := by
  obtain ⟨t, ht, v, hv, hrange⟩ := h
  have hlen : ¬ versions.length = 0 := by
    simpa using List.ne_nil_of_mem ht
  have hcand : (v, t) ∈ SemVer.candidates parse p versions :=
    (SemVer.mem_candidates parse p versions (v, t)).mpr ⟨ht, hv, hrange⟩
  unfold SemVer.Latest
  rw [if_neg hlen]
  cases hcs : SemVer.candidates parse p versions with
  | nil => rw [hcs] at hcand; exact absurd hcand (List.not_mem_nil _)
  | cons first rest =>
    obtain ⟨h1, _, h3⟩ := SemVer.foldl_max less hirr htrans rest first _ rfl
    rw [← hcs] at h1 h3
    have hb := (SemVer.mem_candidates parse p versions _).mp h1
    refine ⟨_, _, rfl, hb.1, hb.2.1, hb.2.2, fun t' ht' v' hv' hr' => ?_⟩
    exact h3 (v', t') ((SemVer.mem_candidates parse p versions (v', t')).mpr ⟨ht', hv', hr'⟩)

/-- With no candidate, `SemVer.Latest` fails. -/
theorem SemVer.Latest_error {V : Type} (parse : GoString → Option V) (less : V → V → Bool)
    (p : SemVer V) (versions : List Tag)
    (h : ∀ t ∈ versions, ∀ v, parse (stripV t.Name) = some v → p.Range v = false) :
    SemVer.Latest parse less p versions =
      if versions.length = 0 then .error (.new (str "empty input"))
      else .error (.new (str "no matching version")) := by
  have hcs : SemVer.candidates parse p versions = [] := by
    rw [List.eq_nil_iff_forall_not_mem]
    intro c hc
    have hm := (SemVer.mem_candidates parse p versions c).mp hc
    rw [h c.2 hm.1 c.1 hm.2.1] at hm
    exact Bool.false_ne_true hm.2.2
  unfold SemVer.Latest
  rw [hcs]

theorem exampleLess_irrefl (a : Nat × Nat × Nat) : exampleLess a a = false := by
  unfold exampleLess
  rw [decide_eq_false_iff_not]
  omega

theorem exampleLess_trans (a b c : Nat × Nat × Nat) (h1 : exampleLess a b = true)
    (h2 : exampleLess b c = true) : exampleLess a c = true := by
  unfold exampleLess at *
  rw [decide_eq_true_iff] at *
  omega

/-! ## Lemmas: the map and the sorted names of `Alphabetical.Latest` -/

theorem foldl_set_nodup (key : Tag → GoString) (val : Tag → Tag) (l : List Tag)
    (m : GoMap Tag) (h : (m.map Prod.fst).Nodup) :
    ((l.foldl (fun m t => GoMap.set m (key t) (val t)) m).map Prod.fst).Nodup := by
  induction l generalizing m with
  | nil => exact h
  | cons t l ih =>
    rw [List.foldl_cons]
    exact ih _ (GoMap.set_nodup m _ _ h)

/-- The keys of `tagsByName` are pairwise distinct. -/
theorem Alphabetical.tagsByName_nodup (versions : List Tag) :
    ((Alphabetical.tagsByName versions).map Prod.fst).Nodup :=
  foldl_set_nodup (fun t => t.Name) (fun t => t) versions [] List.nodup_nil

/-- The keys of `tagsByName` are the names of the input tags. -/
theorem Alphabetical.mem_tagsByName_keys (versions : List Tag) (k : GoString) :
    k ∈ (Alphabetical.tagsByName versions).map Prod.fst ↔
      k ∈ versions.map (fun t => t.Name) := by
  constructor
  · intro hk
    obtain ⟨⟨k', v⟩, hmem, rfl⟩ := List.mem_map.mp hk
    rw [GoMap.mem_iff_lookup _ (Alphabetical.tagsByName_nodup versions),
      Alphabetical.tagsByName_lookup] at hmem
    have h := findLast_some hmem
    exact List.mem_map.mpr ⟨v, h.1, by simpa using h.2⟩
  · intro hk
    obtain ⟨t, ht, rfl⟩ := List.mem_map.mp hk
    obtain ⟨u, hu⟩ := findLast_isSome (q := fun x => decide (x.Name = t.Name)) ht (by simp)
    have hmem : (t.Name, u) ∈ Alphabetical.tagsByName versions := by
      rw [GoMap.mem_iff_lookup _ (Alphabetical.tagsByName_nodup versions),
        Alphabetical.tagsByName_lookup]
      exact hu
    exact List.mem_map.mpr ⟨(t.Name, u), hmem, rfl⟩

/-- The slice that `Latest` sorts is a rearrangement of the names of the input tags,
one entry per tag. -/
theorem Alphabetical.sorted_perm (p : Alphabetical) (versions : List Tag) :
    (Alphabetical.sorted p versions).Perm (versions.map (fun t => t.Name)) := by
  unfold Alphabetical.sorted Alphabetical.tagNames
  split
  · exact StringSlice.Sort_perm _
  · exact StringSlice.SortReverse_perm _

/-! ## Lemmas: the number of items of a filter -/

/-- The names of the elements of `Items()` are the output names of the matching
items, each once. -/
theorem RegexFilter.Items_names_perm (f : RegexFilter) (list : List Tag) :
    ((RegexFilter.Items (RegexFilter.Apply f list)).map (fun t => t.Name)).Perm
      (RegexFilter.outputNames f list).dedup := by
  rw [List.perm_ext_iff_of_nodup (RegexFilter.Items_names_nodup f list) (List.nodup_dedup _)]
  intro o
  rw [List.mem_dedup, List.mem_map]
  unfold RegexFilter.outputNames
  rw [List.mem_map]
  constructor
  · rintro ⟨t, ht, hname⟩
    obtain ⟨u, hu, hm, ho⟩ := (RegexFilter.Items_names f list o).mp ⟨t, ht, hname⟩
    exact ⟨u, List.mem_filter.mpr ⟨hu, hm⟩, ho⟩
  · rintro ⟨u, hu, ho⟩
    have h := List.mem_filter.mp hu
    exact (RegexFilter.Items_names f list o).mpr ⟨u, h.1, h.2, ho⟩


/-! ## Lemmas: `Alphabetical.Latest` and the order of its input -/

/-- On lists with pairwise distinct names, `Latest` gives the same result on a list
and on a rearrangement of it. -/
theorem Alphabetical.Latest_perm_of_nodup (p : Alphabetical) (l l' : List Tag)
    (hnd : (l.map (fun t => t.Name)).Nodup) (hperm : l'.Perm l) :
    Alphabetical.Latest p l' = Alphabetical.Latest p l := by
  by_cases hl : l = []
  · subst hl
    rw [List.Perm.eq_nil hperm]
  · have hl' : l' ≠ [] := fun h => hl (List.Perm.eq_nil (h ▸ hperm.symm))
    obtain ⟨_, _, r, _, _, hr, hmem, _, _, hext⟩ := Alphabetical.Latest_spec p l hl
    obtain ⟨_, _, r', _, _, hr', hmem', _, _, hext'⟩ := Alphabetical.Latest_spec p l' hl'
    have hname : r'.Name = r.Name := by
      by_cases hd : p.Order = AlphabeticalOrderDesc
      · rw [if_pos hd] at hext hext'
        exact le_antisymm (hext' r (hperm.symm.subset hmem)) (hext r' (hperm.subset hmem'))
      · rw [if_neg hd] at hext hext'
        exact le_antisymm (hext r' (hperm.subset hmem')) (hext' r (hperm.symm.subset hmem))
    have heq : r' = r :=
      List.inj_on_of_nodup_map hnd (hperm.subset hmem') hmem hname
    rw [hr, hr', heq]

/-! ## The properties -/

/-- C1: for every non-empty list of tags, `Alphabetical.Latest` with order `"ASC"`
returns a tag whose name is greater than or equal to the name of every input tag in
the byte-wise lexicographic order, and with order `"DESC"` a tag whose name is less
than or equal to the name of every input tag. -/
theorem Alphabetical.Latest_extreme (versions : List Tag) (h : versions ≠ []) :
    (∃ r, Alphabetical.Latest { Order := AlphabeticalOrderAsc } versions = .ok r ∧
      ∀ t ∈ versions, t.Name ≤ r.Name) ∧
    (∃ r, Alphabetical.Latest { Order := AlphabeticalOrderDesc } versions = .ok r ∧
      ∀ t ∈ versions, r.Name ≤ t.Name) := by
  constructor
  · obtain ⟨_, _, r, _, _, hr, _, _, _, hext⟩ :=
      Alphabetical.Latest_spec { Order := AlphabeticalOrderAsc } versions h
    rw [if_neg (by decide)] at hext
    exact ⟨r, hr, hext⟩
  · obtain ⟨_, _, r, _, _, hr, _, _, _, hext⟩ :=
      Alphabetical.Latest_spec { Order := AlphabeticalOrderDesc } versions h
    rw [if_pos rfl] at hext
    exact ⟨r, hr, hext⟩

/-- Witness of C1 on the Ubuntu CalVer names of `TestAlphabetical_Latest`. -/
theorem Alphabetical.Latest_extreme_witness :
    [(⟨str "16.04", str "a"⟩ : Tag), ⟨str "20.10", str "b"⟩, ⟨str "16.10", str "c"⟩] ≠ [] ∧
    (∃ r, Alphabetical.Latest { Order := AlphabeticalOrderAsc }
        [⟨str "16.04", str "a"⟩, ⟨str "20.10", str "b"⟩, ⟨str "16.10", str "c"⟩] = .ok r ∧
      ∀ t ∈ [(⟨str "16.04", str "a"⟩ : Tag), ⟨str "20.10", str "b"⟩,
        ⟨str "16.10", str "c"⟩], t.Name ≤ r.Name) ∧
    (∃ r, Alphabetical.Latest { Order := AlphabeticalOrderDesc }
        [⟨str "16.04", str "a"⟩, ⟨str "20.10", str "b"⟩, ⟨str "16.10", str "c"⟩] = .ok r ∧
      ∀ t ∈ [(⟨str "16.04", str "a"⟩ : Tag), ⟨str "20.10", str "b"⟩,
        ⟨str "16.10", str "c"⟩], r.Name ≤ t.Name) :=
  ⟨by decide, Alphabetical.Latest_extreme _ (by decide)⟩

/-- Counterexample to C2: with Go's `encoding/json`, a tag whose name is the single
byte `0xFF`, which is no valid UTF-8, is stored without error and comes back with
the replacement rune U+FFFD as its name. -/
theorem BadgerDatabase.SetTags_Tags_invalid_utf8 :
    (BadgerDatabase.SetTags goJSON BadgerDatabase.empty testRepo
      [⟨[255], str "digest"⟩]).2 = none ∧
    BadgerDatabase.Tags goJSON (BadgerDatabase.SetTags goJSON BadgerDatabase.empty testRepo
      [⟨[255], str "digest"⟩]).1 testRepo = .ok [⟨[239, 191, 189], str "digest"⟩] ∧
    BadgerDatabase.Tags goJSON (BadgerDatabase.SetTags goJSON BadgerDatabase.empty testRepo
      [⟨[255], str "digest"⟩]).1 testRepo ≠ .ok [⟨[255], str "digest"⟩] := by
  decide

/-- C2, amended: for every store state, every repository and every tag list,
`SetTags(repo, tags)` returns no error and `Tags(repo)` then returns no error and
the tags with every name and digest coerced to valid UTF-8 (each byte that starts no
valid encoding replaced by U+FFFD).  For every tag list whose names and digests are
valid UTF-8 this is the sequence `tags` itself, whatever was stored for `repo`
before, in particular right after an earlier `SetTags(repo, tags1)`. -/
theorem BadgerDatabase.SetTags_Tags_valid_utf8 (a : BadgerDatabase) (repo : GoString)
    (tags : List Tag) :
    (BadgerDatabase.SetTags goJSON a repo tags).2 = none ∧
    BadgerDatabase.Tags goJSON (BadgerDatabase.SetTags goJSON a repo tags).1 repo =
      .ok (tags.map (fun t =>
        { Name := toValidUTF8 t.Name, Digest := toValidUTF8 t.Digest })) ∧
    ((∀ t ∈ tags, utf8Valid t.Name = true ∧ utf8Valid t.Digest = true) →
      BadgerDatabase.Tags goJSON (BadgerDatabase.SetTags goJSON a repo tags).1 repo =
        .ok tags ∧
      ∀ tags1 : List Tag,
        BadgerDatabase.Tags goJSON (BadgerDatabase.SetTags goJSON
          (BadgerDatabase.SetTags goJSON a repo tags1).1 repo tags).1 repo = .ok tags) := by
  refine ⟨(BadgerDatabase.Tags_SetTags_goJSON a repo tags).1,
    (BadgerDatabase.Tags_SetTags_goJSON a repo tags).2, fun h => ⟨?_, fun tags1 => ?_⟩⟩
  · rw [(BadgerDatabase.Tags_SetTags_goJSON a repo tags).2, map_toValidUTF8_of_valid tags h]
  · rw [(BadgerDatabase.Tags_SetTags_goJSON _ repo tags).2, map_toValidUTF8_of_valid tags h]

/-- Witness of C2: the tags of `TestSetTags`, written over an earlier record. -/
theorem BadgerDatabase.SetTags_Tags_valid_utf8_witness :
    (∀ t ∈ exampleStored, utf8Valid t.Name = true ∧ utf8Valid t.Digest = true) ∧
    BadgerDatabase.Tags goJSON (BadgerDatabase.SetTags goJSON
      (BadgerDatabase.SetTags goJSON BadgerDatabase.empty testRepo exampleTags).1
      testRepo exampleStored).1 testRepo = .ok exampleStored ∧
    ∀ tags1 : List Tag,
      BadgerDatabase.Tags goJSON (BadgerDatabase.SetTags goJSON (BadgerDatabase.SetTags goJSON
        (BadgerDatabase.SetTags goJSON BadgerDatabase.empty testRepo exampleTags).1
        testRepo tags1).1 testRepo exampleStored).1 testRepo = .ok exampleStored :=
  ⟨by decide,
    (BadgerDatabase.SetTags_Tags_valid_utf8
      (BadgerDatabase.SetTags goJSON BadgerDatabase.empty testRepo exampleTags).1
      testRepo exampleStored).2.2 (by decide)⟩

/-- Counterexample to C3: with Go's `encoding/json`, the legacy record of the name
`0xFF`, which is no valid UTF-8, is read as a tag named U+FFFD, not as a tag with
the name itself. -/
theorem unmarshal_legacy_invalid_utf8 :
    goMarshalStrings [[255]] = str "[\"\\ufffd\"]" ∧
    unmarshal goJSON (goMarshalStrings [[255]]) = .ok [⟨[239, 191, 189], str ""⟩] ∧
    unmarshal goJSON (goMarshalStrings [[255]]) ≠
      .ok ([[255]].map (fun n => { Name := n, Digest := str "" })) := by
  decide

/-- C3, amended: for every list of names, `unmarshal` of the legacy record of the
list (the JSON array of the names as bare strings) succeeds and returns one tag per
name, in the same order, with an empty digest and with the name coerced to valid
UTF-8, which is the name itself when the names are valid UTF-8; and for every list
of names the result is the result of `unmarshal` on the current-format record
(`marshal`) of the same tags with empty digests. -/
theorem unmarshal_legacy_valid_utf8 (names : List GoString) :
    unmarshal goJSON (goMarshalStrings names) =
      .ok (names.map (fun n => { Name := toValidUTF8 n, Digest := str "" })) ∧
    ((∀ n ∈ names, utf8Valid n = true) →
      unmarshal goJSON (goMarshalStrings names) =
        .ok (names.map (fun n => { Name := n, Digest := str "" }))) ∧
    ∃ b', marshal goJSON (names.map (fun n => { Name := n, Digest := str "" })) = .ok b' ∧
      unmarshal goJSON (goMarshalStrings names) = unmarshal goJSON b' := by
  refine ⟨unmarshal_goMarshalStrings names, fun h => ?_, _, rfl, ?_⟩
  · rw [unmarshal_goMarshalStrings]
    congr 1
    apply List.map_congr_left
    intro n hn
    rw [toValidUTF8_of_valid n (h n hn)]
  · rw [unmarshal_goMarshalStrings,
      unmarshal_of_ok goJSON _ _ (goJSON_unmarshal_marshal _), List.map_map]
    rfl

/-- Witness of C3: the legacy record of `TestReadOldData`. -/
theorem unmarshal_legacy_valid_utf8_witness :
    (∀ n ∈ [str "latest", str "v0.0.1", str "v0.0.2"], utf8Valid n = true) ∧
    goMarshalStrings [str "latest", str "v0.0.1", str "v0.0.2"] =
      str "[\"latest\",\"v0.0.1\",\"v0.0.2\"]" ∧
    unmarshal goJSON (goMarshalStrings [str "latest", str "v0.0.1", str "v0.0.2"]) =
      .ok ([str "latest", str "v0.0.1", str "v0.0.2"].map
        (fun n => { Name := n, Digest := str "" })) :=
  ⟨by decide, by decide,
    (unmarshal_legacy_valid_utf8 [str "latest", str "v0.0.1", str "v0.0.2"]).2.1
      (by decide)⟩

/-- C4: the selection pipeline with a filter.  For every filter `f`, every tag list
with at least one tag matching the pattern of `f`, and every slice `items` that
`Items()` can return after `f.Apply(tags)`, `Alphabetical.Latest(items)` succeeds,
and `GetOriginalTag` of the name of its result is an element of the input list
whose name matches the pattern and whose digest is the digest of the result. -/
theorem RegexFilter.pipeline_original (f : RegexFilter) (p : Alphabetical)
    (tags items : List Tag)
    (hmatch : ∃ t ∈ tags, RegexFilter.isMatch f t.Name = true)
    (hitems : RegexFilter.ItemsIn (RegexFilter.Apply f tags) items) :
    ∃ latest, Alphabetical.Latest p items = .ok latest ∧
      RegexFilter.GetOriginalTag (RegexFilter.Apply f tags) latest.Name ∈ tags ∧
      RegexFilter.isMatch f
        (RegexFilter.GetOriginalTag (RegexFilter.Apply f tags) latest.Name).Name = true ∧
      (RegexFilter.GetOriginalTag (RegexFilter.Apply f tags) latest.Name).Digest =
        latest.Digest := by
  obtain ⟨u, hu, hm⟩ := hmatch
  obtain ⟨t, ht, _⟩ := (RegexFilter.Items_names f tags _).mpr ⟨u, hu, hm, rfl⟩
  have hne : items ≠ [] := List.ne_nil_of_mem (hitems.symm.subset ht)
  obtain ⟨_, _, r, _, _, hr, hmem, _⟩ := Alphabetical.Latest_spec p items hne
  have h := RegexFilter.Items_original f tags r (hitems.subset hmem)
  exact ⟨r, hr, h.1, h.2.1, h.2.2.2⟩

/-- Witness of C4: the filter `ver(\d+)` with template `$1` on the tags of
`TestRegexFilter`, the items taken in the order `2`, `3`, `1`. -/
theorem RegexFilter.pipeline_original_witness :
    (∃ t ∈ exampleTags, RegexFilter.isMatch exampleFilter t.Name = true) ∧
    RegexFilter.ItemsIn (RegexFilter.Apply exampleFilter exampleTags)
      [⟨str "2", str "bar"⟩, ⟨str "3", str "baz"⟩, ⟨str "1", str "foo"⟩] ∧
    ∃ latest, Alphabetical.Latest { Order := AlphabeticalOrderAsc }
        [⟨str "2", str "bar"⟩, ⟨str "3", str "baz"⟩, ⟨str "1", str "foo"⟩] = .ok latest ∧
      RegexFilter.GetOriginalTag (RegexFilter.Apply exampleFilter exampleTags) latest.Name ∈
        exampleTags ∧
      RegexFilter.isMatch exampleFilter
        (RegexFilter.GetOriginalTag (RegexFilter.Apply exampleFilter exampleTags)
          latest.Name).Name = true ∧
      (RegexFilter.GetOriginalTag (RegexFilter.Apply exampleFilter exampleTags)
        latest.Name).Digest = latest.Digest :=
  ⟨⟨⟨str "ver1", str "foo"⟩, by decide, by decide⟩, by unfold RegexFilter.ItemsIn; decide,
    RegexFilter.pipeline_original exampleFilter _ exampleTags
      [⟨str "2", str "bar"⟩, ⟨str "3", str "baz"⟩, ⟨str "1", str "foo"⟩]
      ⟨⟨str "ver1", str "foo"⟩, by decide, by decide⟩
      (by unfold RegexFilter.ItemsIn; decide)⟩

/-- C5: after `Apply(tags)`, for every element `t` of a slice `Items()` can return,
`GetOriginalTag(t.Name)` is an element of the input list, its name matches the
pattern, its output name (the name itself when no template is set, else the
template expanded against the match) is `t.Name`, and its digest is `t.Digest`. -/
theorem RegexFilter.Items_GetOriginalTag (f : RegexFilter) (tags items : List Tag)
    (hitems : RegexFilter.ItemsIn (RegexFilter.Apply f tags) items) (t : Tag)
    (ht : t ∈ items) :
    RegexFilter.GetOriginalTag (RegexFilter.Apply f tags) t.Name ∈ tags ∧
      RegexFilter.isMatch f
        (RegexFilter.GetOriginalTag (RegexFilter.Apply f tags) t.Name).Name = true ∧
      RegexFilter.outputName f
        (RegexFilter.GetOriginalTag (RegexFilter.Apply f tags) t.Name).Name = t.Name ∧
      (RegexFilter.GetOriginalTag (RegexFilter.Apply f tags) t.Name).Digest = t.Digest :=
  RegexFilter.Items_original f tags t (hitems.subset ht)

/-- Witness of C5: the item `3` of the test case with a capture group. -/
theorem RegexFilter.Items_GetOriginalTag_witness :
    RegexFilter.ItemsIn (RegexFilter.Apply exampleFilter exampleTags)
      [⟨str "1", str "foo"⟩, ⟨str "2", str "bar"⟩, ⟨str "3", str "baz"⟩] ∧
    (⟨str "3", str "baz"⟩ : Tag) ∈
      [(⟨str "1", str "foo"⟩ : Tag), ⟨str "2", str "bar"⟩, ⟨str "3", str "baz"⟩] ∧
    RegexFilter.GetOriginalTag (RegexFilter.Apply exampleFilter exampleTags) (str "3") ∈
      exampleTags ∧
    RegexFilter.isMatch exampleFilter
      (RegexFilter.GetOriginalTag (RegexFilter.Apply exampleFilter exampleTags)
        (str "3")).Name = true ∧
    RegexFilter.outputName exampleFilter
      (RegexFilter.GetOriginalTag (RegexFilter.Apply exampleFilter exampleTags)
        (str "3")).Name = str "3" ∧
    (RegexFilter.GetOriginalTag (RegexFilter.Apply exampleFilter exampleTags)
      (str "3")).Digest = str "baz" :=
  ⟨by unfold RegexFilter.ItemsIn; decide, by decide,
    RegexFilter.Items_GetOriginalTag exampleFilter exampleTags
      [⟨str "1", str "foo"⟩, ⟨str "2", str "bar"⟩, ⟨str "3", str "baz"⟩]
      (by unfold RegexFilter.ItemsIn; decide) ⟨str "3", str "baz"⟩ (by decide)⟩

/-- C6: after `Apply(tags)`, a name `o` is the name of an element of `Items()`
exactly when some input tag whose name matches the pattern has output name `o`.  In
particular the input tags that do not match contribute nothing (the filter is the
same as after `Apply` on the matching tags alone), and the output name of every
matching input tag is the name of an element of `Items()`. -/
theorem RegexFilter.Items_name_iff (f : RegexFilter) (tags items : List Tag)
    (hitems : RegexFilter.ItemsIn (RegexFilter.Apply f tags) items) :
    (∀ o : GoString, (∃ t ∈ items, t.Name = o) ↔
      ∃ u ∈ tags, RegexFilter.isMatch f u.Name = true ∧ RegexFilter.outputName f u.Name = o) ∧
    RegexFilter.Apply f tags =
      RegexFilter.Apply f (tags.filter (fun u => RegexFilter.isMatch f u.Name)) ∧
    (∀ u ∈ tags, RegexFilter.isMatch f u.Name = false →
      (∀ v ∈ tags, RegexFilter.isMatch f v.Name = true →
        RegexFilter.outputName f v.Name ≠ u.Name) → ∀ t ∈ items, t.Name ≠ u.Name) ∧
    ∀ u ∈ tags, RegexFilter.isMatch f u.Name = true →
      ∃ t ∈ items, t.Name = RegexFilter.outputName f u.Name := by
  have hiff : ∀ o : GoString, (∃ t ∈ items, t.Name = o) ↔
      ∃ u ∈ tags, RegexFilter.isMatch f u.Name = true ∧
        RegexFilter.outputName f u.Name = o := by
    intro o
    rw [← RegexFilter.Items_names f tags o]
    constructor
    · rintro ⟨t, ht, h⟩; exact ⟨t, hitems.subset ht, h⟩
    · rintro ⟨t, ht, h⟩; exact ⟨t, hitems.symm.subset ht, h⟩
  refine ⟨hiff, ?_, ?_, fun u hu hm => (hiff _).mpr ⟨u, hu, hm, rfl⟩⟩
  · unfold RegexFilter.Apply
    rw [RegexFilter.foldl_applyStep_filter]
  · intro u _ _ hno t ht hname
    obtain ⟨v, hv, hvm, hvo⟩ := (hiff u.Name).mp ⟨t, ht, hname⟩
    exact hno v hv hvm hvo

/-- Witness of C6: in the test case with a capture group the tag `rel1` does not
match and no item is named `rel1`. -/
theorem RegexFilter.Items_name_iff_witness :
    RegexFilter.ItemsIn (RegexFilter.Apply exampleFilter exampleTags)
      [⟨str "1", str "foo"⟩, ⟨str "2", str "bar"⟩, ⟨str "3", str "baz"⟩] ∧
    (∃ t ∈ [(⟨str "1", str "foo"⟩ : Tag), ⟨str "2", str "bar"⟩, ⟨str "3", str "baz"⟩],
      t.Name = str "2") ∧
    ∀ t ∈ [(⟨str "1", str "foo"⟩ : Tag), ⟨str "2", str "bar"⟩, ⟨str "3", str "baz"⟩],
      t.Name ≠ str "rel1" :=
  ⟨by unfold RegexFilter.ItemsIn; decide,
    ((RegexFilter.Items_name_iff exampleFilter exampleTags
      [⟨str "1", str "foo"⟩, ⟨str "2", str "bar"⟩, ⟨str "3", str "baz"⟩]
      (by unfold RegexFilter.ItemsIn; decide)).1 (str "2")).mpr
      ⟨⟨str "ver2", str "bar"⟩, by decide, by decide, by decide⟩,
    (RegexFilter.Items_name_iff exampleFilter exampleTags
      [⟨str "1", str "foo"⟩, ⟨str "2", str "bar"⟩, ⟨str "3", str "baz"⟩]
      (by unfold RegexFilter.ItemsIn; decide)).2.2.1 ⟨str "rel1", str "qux"⟩ (by decide)
      (by decide) (by decide)⟩

/-- C7: for every non-empty list of tags and every order, the tag returned by
`Alphabetical.Latest` is equal by value (name and digest) to an element of the
input list. -/
theorem Alphabetical.Latest_mem (p : Alphabetical) (versions : List Tag)
    (h : versions ≠ []) :
    ∃ r, Alphabetical.Latest p versions = .ok r ∧ r ∈ versions := by
  obtain ⟨_, _, r, _, _, hr, hmem, _⟩ := Alphabetical.Latest_spec p versions h
  exact ⟨r, hr, hmem⟩

/-- Witness of C7: two tags of the same name and different digests, descending. -/
theorem Alphabetical.Latest_mem_witness :
    [(⟨str "a", str "1"⟩ : Tag), ⟨str "b", str "2"⟩, ⟨str "a", str "3"⟩] ≠ [] ∧
    ∃ r, Alphabetical.Latest { Order := AlphabeticalOrderDesc }
        [⟨str "a", str "1"⟩, ⟨str "b", str "2"⟩, ⟨str "a", str "3"⟩] = .ok r ∧
      r ∈ [(⟨str "a", str "1"⟩ : Tag), ⟨str "b", str "2"⟩, ⟨str "a", str "3"⟩] :=
  ⟨by decide, Alphabetical.Latest_mem _ _ (by decide)⟩

/-- C8: `Latest` on an empty tag sequence fails, with an error and no tag, for every
policy variant: Alphabetical with any order, Numerical with any order, and SemVer
with any range. -/
theorem Latest_empty_fails :
    (∀ p : Alphabetical, ∃ e, Alphabetical.Latest p [] = .error e) ∧
    (∀ (parse : GoString → Option ℚ) (p : Numerical),
      ∃ e, Numerical.Latest parse p [] = .error e) ∧
    (∀ (V : Type) (parse : GoString → Option V) (less : V → V → Bool) (p : SemVer V),
      ∃ e, SemVer.Latest parse less p [] = .error e) :=
  ⟨fun _ => ⟨_, rfl⟩, fun _ _ => ⟨_, rfl⟩, fun _ _ _ _ => ⟨_, rfl⟩⟩

/-- C9: for every store state, every repository for which the store holds no record,
and every sequence of `SetTags` calls for other repositories made since,
`Tags(repo)` returns the empty sequence and no error. -/
theorem BadgerDatabase.Tags_unknown (j : JSON) (a : BadgerDatabase) (repo : GoString)
    (writes : List (GoString × List Tag))
    (h : GoMap.lookup a.db (keyForRepo tagsPrefix repo) = none)
    (hw : ∀ w ∈ writes, w.1 ≠ repo) :
    BadgerDatabase.Tags j (BadgerDatabase.SetTagsAll j a writes) repo = .ok [] := by
  unfold BadgerDatabase.Tags getOrEmpty
  rw [BadgerDatabase.SetTagsAll_Get_other j a repo writes hw]
  unfold Txn.Get
  rw [h]
  simp

/-- Witness of C9: `TestGetWithUnknownRepo`, after a write to another repository. -/
theorem BadgerDatabase.Tags_unknown_witness :
    GoMap.lookup BadgerDatabase.empty.db (keyForRepo tagsPrefix testRepo) = none ∧
    (∀ w ∈ [(str "another/repo", exampleStored)], w.1 ≠ testRepo) ∧
    BadgerDatabase.Tags exampleJSON
      (BadgerDatabase.SetTagsAll exampleJSON BadgerDatabase.empty
        [(str "another/repo", exampleStored)]) testRepo = .ok [] :=
  ⟨by decide, by decide,
    BadgerDatabase.Tags_unknown exampleJSON BadgerDatabase.empty testRepo
      [(str "another/repo", exampleStored)] (by decide) (by decide)⟩

/-- C10: `unmarshal` returns an error exactly when the bytes decode neither as the
current format (a sequence of tags) nor as the legacy format (a sequence of
strings); it then returns no tags, and the error embeds both failures: its message
contains the message of the current-format error and that of the legacy error, and
it wraps the legacy error. -/
theorem unmarshal_error_iff (j : JSON) (b : List (Fin 256)) :
    ((∃ e, unmarshal j b = .error e) ↔
      (∃ e1, j.UnmarshalTags b = .error e1) ∧ (∃ e2, j.UnmarshalStrings b = .error e2)) ∧
    ∀ e1 e2, j.UnmarshalTags b = .error e1 → j.UnmarshalStrings b = .error e2 →
      ∃ e, unmarshal j b = .error e ∧
        e.Error = str "failed unmarshaling values. First error: " ++ e1.Error ++
          str ". Second error: " ++ e2.Error ∧
        List.IsInfix e1.Error e.Error ∧ List.IsInfix e2.Error e.Error ∧
        e.Unwrap = some e2 := by
  constructor
  · unfold unmarshal
    cases h1 : j.UnmarshalTags b with
    | ok tags => simp
    | error err =>
      cases h2 : j.UnmarshalStrings b with
      | ok names => simp
      | error err2 => simp
  · intro e1 e2 h1 h2
    refine ⟨.wrap (str "failed unmarshaling values. First error: " ++ e1.Error ++
      str ". Second error: " ++ e2.Error) e2, by unfold unmarshal; rw [h1]; simp only [h2],
      rfl, ?_, ?_, rfl⟩
    · exact ⟨str "failed unmarshaling values. First error: ",
        str ". Second error: " ++ e2.Error, by simp [GoError.Error]⟩
    · exact ⟨str "failed unmarshaling values. First error: " ++ e1.Error ++
        str ". Second error: ", [], by simp [GoError.Error]⟩

/-- Witness of C10: bytes that are no JSON array. -/
theorem unmarshal_error_iff_witness :
    exampleJSON.UnmarshalTags (str "\x7b\x7d") =
      .error (.new (str "json: cannot unmarshal into []database.Tag")) ∧
    exampleJSON.UnmarshalStrings (str "\x7b\x7d") =
      .error (.new (str "json: cannot unmarshal into []string")) ∧
    ∃ e, unmarshal exampleJSON (str "\x7b\x7d") = .error e ∧
      e.Error = str "failed unmarshaling values. First error: " ++
        (GoError.new (str "json: cannot unmarshal into []database.Tag")).Error ++
          str ". Second error: " ++
        (GoError.new (str "json: cannot unmarshal into []string")).Error ∧
      List.IsInfix (GoError.new (str "json: cannot unmarshal into []database.Tag")).Error
        e.Error ∧
      List.IsInfix (GoError.new (str "json: cannot unmarshal into []string")).Error
        e.Error ∧
      e.Unwrap = some (GoError.new (str "json: cannot unmarshal into []string")) :=
  ⟨by decide, by decide,
    (unmarshal_error_iff exampleJSON (str "\x7b\x7d")).2 _ _ (by decide) (by decide)⟩

/-- C11: within one `Apply` call, when several matching input tags give the same
output name, the one that occurs last in the input list wins: `GetOriginalTag` of
the name returns that tag, and every slice `Items()` can return has exactly one
element with the name, carrying the digest of that tag. -/
theorem RegexFilter.Apply_last_wins (f : RegexFilter) (front back items : List Tag)
    (u : Tag) (o : GoString)
    (hm : RegexFilter.isMatch f u.Name = true) (ho : RegexFilter.outputName f u.Name = o)
    (hback : ∀ v ∈ back, RegexFilter.isMatch f v.Name = true →
      RegexFilter.outputName f v.Name ≠ o)
    (hitems : RegexFilter.ItemsIn (RegexFilter.Apply f (front ++ u :: back)) items) :
    RegexFilter.GetOriginalTag (RegexFilter.Apply f (front ++ u :: back)) o = u ∧
    items.filter (fun t => decide (t.Name = o)) = [{ Name := o, Digest := u.Digest }] := by
  have hlast : findLast (fun x => RegexFilter.isMatch f x.Name &&
      decide (RegexFilter.outputName f x.Name = o)) (front ++ u :: back) = some u := by
    apply findLast_append_cons
    · simp [hm, ho]
    · intro v hv
      by_cases hvm : RegexFilter.isMatch f v.Name = true
      · simp [hvm, hback v hv hvm]
      · simp [hvm]
  constructor
  · unfold RegexFilter.GetOriginalTag GoMap.get
    rw [RegexFilter.Apply_lookup, hlast]
    rfl
  · have hmem : ({ Name := o, Digest := u.Digest } : Tag) ∈
        RegexFilter.Items (RegexFilter.Apply f (front ++ u :: back)) :=
      (RegexFilter.mem_Items_iff f _ _).mpr ⟨u, hlast, rfl⟩
    have hsingle := filter_name_eq_singleton _
      (RegexFilter.Items_names_nodup f (front ++ u :: back)) _ hmem
    have hperm := List.Perm.filter (fun t : Tag => decide (t.Name = o)) hitems
    rw [hsingle] at hperm
    exact List.perm_singleton.mp hperm

/-- Witness of C11: with the pattern `ver(\d+)` and the template `$1`, the tags
`ver1` and `xver1` both give the name `1`; `xver1` comes later. -/
theorem RegexFilter.Apply_last_wins_witness :
    RegexFilter.isMatch exampleFilter (str "xver1") = true ∧
    RegexFilter.outputName exampleFilter (str "xver1") = str "1" ∧
    (∀ v ∈ [(⟨str "ver2", str "bar"⟩ : Tag)], RegexFilter.isMatch exampleFilter v.Name = true →
      RegexFilter.outputName exampleFilter v.Name ≠ str "1") ∧
    RegexFilter.ItemsIn (RegexFilter.Apply exampleFilter
      ([⟨str "ver1", str "foo"⟩] ++ ⟨str "xver1", str "baz"⟩ :: [⟨str "ver2", str "bar"⟩]))
      [⟨str "1", str "baz"⟩, ⟨str "2", str "bar"⟩] ∧
    RegexFilter.GetOriginalTag (RegexFilter.Apply exampleFilter
      ([⟨str "ver1", str "foo"⟩] ++ ⟨str "xver1", str "baz"⟩ :: [⟨str "ver2", str "bar"⟩]))
      (str "1") = ⟨str "xver1", str "baz"⟩ ∧
    [(⟨str "1", str "baz"⟩ : Tag), ⟨str "2", str "bar"⟩].filter
      (fun t => decide (t.Name = str "1")) = [{ Name := str "1", Digest := str "baz" }] :=
  ⟨by decide, by decide, by decide, by unfold RegexFilter.ItemsIn; decide,
    RegexFilter.Apply_last_wins exampleFilter [⟨str "ver1", str "foo"⟩]
      [⟨str "ver2", str "bar"⟩] [⟨str "1", str "baz"⟩, ⟨str "2", str "bar"⟩]
      ⟨str "xver1", str "baz"⟩ (str "1") (by decide) (by decide) (by decide)
      (by unfold RegexFilter.ItemsIn; decide)⟩

/-- C12: after `Apply(tags)`, for every name that is not the output name of a
matching input tag, `GetOriginalTag(name)` returns the zero value of `Tag`, with an
empty name and an empty digest. -/
theorem RegexFilter.GetOriginalTag_unknown (f : RegexFilter) (tags : List Tag)
    (name : GoString)
    (h : ∀ u ∈ tags, RegexFilter.isMatch f u.Name = true →
      RegexFilter.outputName f u.Name ≠ name) :
    RegexFilter.GetOriginalTag (RegexFilter.Apply f tags) name =
      { Name := str "", Digest := str "" } := by
  unfold RegexFilter.GetOriginalTag GoMap.get
  rw [RegexFilter.Apply_lookup_none f tags name h]
  rfl

/-- Witness of C12: `ver1` is the name of an input tag and no output name. -/
theorem RegexFilter.GetOriginalTag_unknown_witness :
    (∀ u ∈ exampleTags, RegexFilter.isMatch exampleFilter u.Name = true →
      RegexFilter.outputName exampleFilter u.Name ≠ str "ver1") ∧
    RegexFilter.GetOriginalTag (RegexFilter.Apply exampleFilter exampleTags) (str "ver1") =
      { Name := str "", Digest := str "" } :=
  ⟨by decide,
    RegexFilter.GetOriginalTag_unknown exampleFilter exampleTags (str "ver1") (by decide)⟩

/-- C13: the state of a filter is not incremental: the filter after `Apply(a)`
followed by `Apply(b)` is the filter after `Apply(b)` alone, so `GetOriginalTag` and
`Items()` answer the same as after `Apply(b)` alone, and a name that `b` does not
produce has no original tag, whatever `a` produced. -/
theorem RegexFilter.Apply_Apply (f : RegexFilter) (a b : List Tag) :
    RegexFilter.Apply (RegexFilter.Apply f a) b = RegexFilter.Apply f b ∧
    (∀ name, RegexFilter.GetOriginalTag (RegexFilter.Apply (RegexFilter.Apply f a) b) name =
      RegexFilter.GetOriginalTag (RegexFilter.Apply f b) name) ∧
    (∀ items, RegexFilter.ItemsIn (RegexFilter.Apply (RegexFilter.Apply f a) b) items ↔
      RegexFilter.ItemsIn (RegexFilter.Apply f b) items) ∧
    ∀ name, (∀ u ∈ b, RegexFilter.isMatch f u.Name = true →
        RegexFilter.outputName f u.Name ≠ name) →
      RegexFilter.GetOriginalTag (RegexFilter.Apply (RegexFilter.Apply f a) b) name =
        { Name := str "", Digest := str "" } ∧
      ∀ items, RegexFilter.ItemsIn (RegexFilter.Apply (RegexFilter.Apply f a) b) items →
        ∀ t ∈ items, t.Name ≠ name := by
  have heq : RegexFilter.Apply (RegexFilter.Apply f a) b = RegexFilter.Apply f b := rfl
  refine ⟨heq, fun _ => by rw [heq], fun _ => by rw [heq], fun name h => ⟨?_, ?_⟩⟩
  · rw [heq]
    unfold RegexFilter.GetOriginalTag GoMap.get
    rw [RegexFilter.Apply_lookup_none f b name h]
    rfl
  · intro items hitems t ht hname
    rw [heq] at hitems
    obtain ⟨u, hu, hm, ho⟩ :=
      (RegexFilter.Items_names f b name).mp ⟨t, hitems.subset ht, hname⟩
    exact h u hu hm ho

/-- Witness of C13: after `Apply` on the tags of the test and then on the single tag
`ver7`, the name `1` of the first call has no original tag and is no item. -/
theorem RegexFilter.Apply_Apply_witness :
    (∀ u ∈ [(⟨str "ver7", str "new"⟩ : Tag)], RegexFilter.isMatch exampleFilter u.Name = true →
      RegexFilter.outputName exampleFilter u.Name ≠ str "1") ∧
    RegexFilter.GetOriginalTag (RegexFilter.Apply (RegexFilter.Apply exampleFilter exampleTags)
      [⟨str "ver7", str "new"⟩]) (str "1") = { Name := str "", Digest := str "" } ∧
    ∀ items, RegexFilter.ItemsIn (RegexFilter.Apply
        (RegexFilter.Apply exampleFilter exampleTags) [⟨str "ver7", str "new"⟩]) items →
      ∀ t ∈ items, t.Name ≠ str "1" :=
  ⟨by decide,
    (RegexFilter.Apply_Apply exampleFilter exampleTags [⟨str "ver7", str "new"⟩]).2.2.2
      (str "1") (by decide)⟩

/-- C14: records of different repositories are independent.  The key of a
repository is `tags`, then `:`, then its identifier; different identifiers have
different keys; and for every store state and two different repositories `a` and
`b`, `SetTags(b, tags2)` leaves the result of `Tags(a)` as it was. -/
theorem BadgerDatabase.SetTags_other_repo (j : JSON) (d : BadgerDatabase) (a b : GoString)
    (tags2 : List Tag) (h : a ≠ b) :
    keyForRepo tagsPrefix a = str "tags" ++ str ":" ++ a ∧
    keyForRepo tagsPrefix a ≠ keyForRepo tagsPrefix b ∧
    BadgerDatabase.Tags j (BadgerDatabase.SetTags j d b tags2).1 a =
      BadgerDatabase.Tags j d a := by
  refine ⟨rfl, fun hk => h (keyForRepo_injective _ _ _ hk), ?_⟩
  unfold BadgerDatabase.Tags getOrEmpty
  rw [BadgerDatabase.SetTags_Get_other j d b a tags2 (fun hba => h hba.symm)]

/-- Witness of C14: `TestGetOnlyFetchesForRepo`. -/
theorem BadgerDatabase.SetTags_other_repo_witness :
    testRepo ≠ str "another/repo" ∧
    keyForRepo tagsPrefix testRepo = str "tags" ++ str ":" ++ testRepo ∧
    keyForRepo tagsPrefix testRepo ≠ keyForRepo tagsPrefix (str "another/repo") ∧
    BadgerDatabase.Tags exampleJSON (BadgerDatabase.SetTags exampleJSON
      (BadgerDatabase.SetTags exampleJSON BadgerDatabase.empty testRepo exampleStored).1
      (str "another/repo") exampleTags).1 testRepo =
      BadgerDatabase.Tags exampleJSON
        (BadgerDatabase.SetTags exampleJSON BadgerDatabase.empty testRepo exampleStored).1
        testRepo :=
  ⟨by decide,
    BadgerDatabase.SetTags_other_repo exampleJSON
      (BadgerDatabase.SetTags exampleJSON BadgerDatabase.empty testRepo exampleStored).1
      testRepo (str "another/repo") exampleTags (by decide)⟩

/-- C15: `NewAlphabetical(order)` succeeds exactly when `order` is one of `""`,
`"ASC"` and `"DESC"`, compared byte by byte; for every other string it returns an
error and no policy. -/
theorem NewAlphabetical_ok_iff (order : GoString) :
    ((∃ p, NewAlphabetical order = .ok p) ↔
      order = str "" ∨ order = str "ASC" ∨ order = str "DESC") ∧
    (¬ (order = str "" ∨ order = str "ASC" ∨ order = str "DESC") →
      ∃ e, NewAlphabetical order = .error e) := by
  unfold NewAlphabetical
  by_cases h1 : order = str ""
  · simp [h1]
  · by_cases h2 : order = AlphabeticalOrderAsc ∨ order = AlphabeticalOrderDesc
    · rw [if_neg h1, if_pos h2]
      exact ⟨⟨fun _ => Or.inr h2, fun _ => ⟨_, rfl⟩⟩, fun hn => absurd (Or.inr h2) hn⟩
    · rw [if_neg h1, if_neg h2]
      refine ⟨⟨fun ⟨p, hp⟩ => (by cases hp), fun h => ?_⟩, fun _ => ⟨_, rfl⟩⟩
      rcases h with h | h
      · exact absurd h h1
      · exact absurd h h2

/-- Witness of C15: the keyword in lower case is refused. -/
theorem NewAlphabetical_ok_iff_witness :
    ¬ (str "asc" = str "" ∨ str "asc" = str "ASC" ∨ str "asc" = str "DESC") ∧
    ∃ e, NewAlphabetical (str "asc") = .error e :=
  ⟨by decide, (NewAlphabetical_ok_iff (str "asc")).2 (by decide)⟩

/-- C16: the empty order keyword means ascending: `NewAlphabetical("")` and
`NewAlphabetical("ASC")` both succeed, the policy of the first has the order
`"ASC"`, and on every tag list the `Latest` of the two policies gives the same
result, the same tag or the same error. -/
theorem NewAlphabetical_empty_order :
    ∃ p q, NewAlphabetical (str "") = .ok p ∧ NewAlphabetical (str "ASC") = .ok q ∧
      p.Order = str "ASC" ∧
      ∀ versions, Alphabetical.Latest p versions = Alphabetical.Latest q versions :=
  ⟨{ Order := AlphabeticalOrderAsc }, { Order := str "ASC" }, by decide, by decide, rfl,
    fun _ => rfl⟩

/-- C17: for every non-empty tag sequence whose names are all numeric (distinct or
not), `Numerical("ASC").Latest` returns a tag of the sequence, with its digest,
whose parsed value is the maximum of the parsed values, and
`Numerical("DESC").Latest` one whose parsed value is the minimum; the values are
compared as numbers. -/
theorem Numerical.Latest_max_min (parse : GoString → Option ℚ) (versions : List Tag)
    (hne : versions ≠ []) (hnum : ∀ t ∈ versions, (parse t.Name).isSome = true) :
    (∃ r v, Numerical.Latest parse { Order := str "ASC" } versions = .ok r ∧ r ∈ versions ∧
      parse r.Name = some v ∧ ∀ t ∈ versions, ∀ w, parse t.Name = some w → w ≤ v) ∧
    (∃ r v, Numerical.Latest parse { Order := str "DESC" } versions = .ok r ∧ r ∈ versions ∧
      parse r.Name = some v ∧ ∀ t ∈ versions, ∀ w, parse t.Name = some w → v ≤ w) := by
  have hnum' : ∀ t ∈ versions, ∃ v, parse t.Name = some v :=
    fun t ht => Option.isSome_iff_exists.mp (hnum t ht)
  constructor
  · obtain ⟨r, v, h1, h2, h3, h4⟩ :=
      Numerical.Latest_numeric_spec parse { Order := str "ASC" } versions hne hnum'
    rw [if_neg (by decide)] at h4
    exact ⟨r, v, h1, h2, h3, h4⟩
  · obtain ⟨r, v, h1, h2, h3, h4⟩ :=
      Numerical.Latest_numeric_spec parse { Order := str "DESC" } versions hne hnum'
    rw [if_pos rfl] at h4
    exact ⟨r, v, h1, h2, h3, h4⟩

/-- Witness of C17: integers of both signs; as strings `8` is the greatest name and
`-62` the least, as numbers `73` and `-91` are. -/
theorem Numerical.Latest_max_min_witness :
    exampleNumbers ≠ [] ∧
    (∀ t ∈ exampleNumbers, (exampleParseNumber t.Name).isSome = true) ∧
    Numerical.Latest exampleParseNumber { Order := str "ASC" } exampleNumbers =
      .ok ⟨str "73", str "foodigest"⟩ ∧
    Numerical.Latest exampleParseNumber { Order := str "DESC" } exampleNumbers =
      .ok ⟨str "-91", str "c"⟩ ∧
    (∃ r v, Numerical.Latest exampleParseNumber { Order := str "ASC" } exampleNumbers = .ok r ∧
      r ∈ exampleNumbers ∧ exampleParseNumber r.Name = some v ∧
      ∀ t ∈ exampleNumbers, ∀ w, exampleParseNumber t.Name = some w → w ≤ v) ∧
    (∃ r v, Numerical.Latest exampleParseNumber { Order := str "DESC" } exampleNumbers = .ok r ∧
      r ∈ exampleNumbers ∧ exampleParseNumber r.Name = some v ∧
      ∀ t ∈ exampleNumbers, ∀ w, exampleParseNumber t.Name = some w → v ≤ w) :=
  ⟨by decide, by decide, by decide, by decide,
    Numerical.Latest_max_min exampleParseNumber exampleNumbers (by decide) (by decide)⟩

/-- C18: for every tag sequence with at least one tag whose name is not numeric,
`Numerical.Latest` fails, whatever the other names and whatever the order: it
returns no tag and a parse error naming a tag of the sequence that is not
numeric. -/
theorem Numerical.Latest_parse_error (parse : GoString → Option ℚ) (p : Numerical)
    (versions : List Tag) (h : ∃ t ∈ versions, parse t.Name = none) :
    ∃ bad ∈ versions, parse bad.Name = none ∧
      Numerical.Latest parse p versions = .error (.new (str "parse error: " ++ bad.Name)) := by
  obtain ⟨t, ht, hnone⟩ := h
  have hlen : ¬ versions.length = 0 := by simpa using List.ne_nil_of_mem ht
  cases hfind : versions.find? (fun t => (parse t.Name).isNone) with
  | none =>
    rw [List.find?_eq_none] at hfind
    exact absurd (by rw [hnone]; rfl) (hfind t ht)
  | some bad =>
    have hbad := List.find?_some hfind
    refine ⟨bad, List.mem_of_find?_eq_some hfind, Option.isNone_iff_eq_none.mp hbad, ?_⟩
    unfold Numerical.Latest
    rw [if_neg hlen, hfind]

/-- Witness of C18: the test case "With invalid numerical value". -/
theorem Numerical.Latest_parse_error_witness :
    (∃ t ∈ [(⟨str "0", []⟩ : Tag), ⟨str "1a", []⟩, ⟨str "b", []⟩],
      exampleParseNumber t.Name = none) ∧
    ∃ bad ∈ [(⟨str "0", []⟩ : Tag), ⟨str "1a", []⟩, ⟨str "b", []⟩],
      exampleParseNumber bad.Name = none ∧
      Numerical.Latest exampleParseNumber { Order := str "DESC" }
        [⟨str "0", []⟩, ⟨str "1a", []⟩, ⟨str "b", []⟩] =
        .error (.new (str "parse error: " ++ bad.Name)) :=
  ⟨⟨⟨str "b", []⟩, by decide, by decide⟩,
    Numerical.Latest_parse_error exampleParseNumber { Order := str "DESC" }
      [⟨str "0", []⟩, ⟨str "1a", []⟩, ⟨str "b", []⟩] ⟨⟨str "b", []⟩, by decide, by decide⟩⟩

/-- C19: for every range (in particular `1.0.x`) and every tag sequence with at
least one tag whose name, after an optional leading `v`, parses as a semantic
version satisfying the range, `SemVer.Latest` succeeds and returns a tag of the
sequence, with its original name and digest, that parses and satisfies the range
and such that no tag that parses and satisfies the range has a higher precedence;
the names that do not parse are ignored.  The precedence `less` is irreflexive and
transitive. -/
theorem SemVer.Latest_highest {V : Type} (parse : GoString → Option V)
    (less : V → V → Bool) (p : SemVer V) (versions : List Tag)
    (hirr : ∀ a, less a a = false)
    (htrans : ∀ a b c, less a b = true → less b c = true → less a c = true)
    (h : ∃ t ∈ versions, ∃ v, parse (stripV t.Name) = some v ∧ p.Range v = true) :
    ∃ r vr, SemVer.Latest parse less p versions = .ok r ∧ r ∈ versions ∧
      parse (stripV r.Name) = some vr ∧ p.Range vr = true ∧
      ∀ t ∈ versions, ∀ v, parse (stripV t.Name) = some v → p.Range v = true →
        less vr v = false :=
  SemVer.Latest_candidate_spec parse less p versions hirr htrans h

/-- Witness of C19: the test case "With valid format" with the range `1.0.x`; the
names `1.0.0.1` and `1.0.0p` do not parse. -/
theorem SemVer.Latest_highest_witness :
    (∀ a, exampleLess a a = false) ∧
    (∀ a b c, exampleLess a b = true → exampleLess b c = true → exampleLess a c = true) ∧
    (∃ t ∈ exampleVersions, ∃ v, exampleParseVersion (stripV t.Name) = some v ∧
      exampleSemVer.Range v = true) ∧
    SemVer.Latest exampleParseVersion exampleLess exampleSemVer exampleVersions =
      .ok ⟨str "1.0.1", str "qux"⟩ ∧
    SemVer.Latest exampleParseVersion exampleLess exampleSemVer
      [⟨str "v1.2.3", str "v1.2.3-digest"⟩, ⟨str "v1.0.0", str "v1.0.0-digest"⟩,
        ⟨str "v0.1.0", str "v0.1.0-dig"⟩] = .ok ⟨str "v1.0.0", str "v1.0.0-digest"⟩ ∧
    ∃ r vr, SemVer.Latest exampleParseVersion exampleLess exampleSemVer exampleVersions =
        .ok r ∧ r ∈ exampleVersions ∧
      exampleParseVersion (stripV r.Name) = some vr ∧ exampleSemVer.Range vr = true ∧
      ∀ t ∈ exampleVersions, ∀ v, exampleParseVersion (stripV t.Name) = some v →
        exampleSemVer.Range v = true → exampleLess vr v = false :=
  ⟨exampleLess_irrefl, exampleLess_trans,
    ⟨⟨str "1.0.0", str "foo"⟩, by decide, (1, 0, 0), by decide, by decide⟩,
    by decide, by decide,
    SemVer.Latest_highest exampleParseVersion exampleLess exampleSemVer exampleVersions
      exampleLess_irrefl exampleLess_trans
      ⟨⟨str "1.0.0", str "foo"⟩, by decide, (1, 0, 0), by decide, by decide⟩⟩

/-- C20: `SemVer.Latest` fails, with an error and no tag, whenever no input tag both
parses as a semantic version and satisfies the range, be it that the names are
invalid or that the versions are outside the range; on a non-empty sequence the
error is the "no matching version" error. -/
theorem SemVer.Latest_no_match {V : Type} (parse : GoString → Option V)
    (less : V → V → Bool) (p : SemVer V) (versions : List Tag)
    (h : ∀ t ∈ versions, ∀ v, parse (stripV t.Name) = some v → p.Range v = false) :
    (∃ e, SemVer.Latest parse less p versions = .error e) ∧
    (versions ≠ [] →
      SemVer.Latest parse less p versions = .error (.new (str "no matching version"))) := by
  rw [SemVer.Latest_error parse less p versions h]
  constructor
  · split
    · exact ⟨_, rfl⟩
    · exact ⟨_, rfl⟩
  · intro hne
    rw [if_neg (by simpa using hne)]

/-- Witness of C20: a name that is no semantic version (`b1.2.3`) and a version
outside `1.0.x` (`1.2.0`), as in the test cases "With invalid format prefix" and
"With non-matching version list". -/
theorem SemVer.Latest_no_match_witness :
    (∀ t ∈ [(⟨str "b1.2.3", []⟩ : Tag), ⟨str "1.2.0", []⟩], ∀ v,
      exampleParseVersion (stripV t.Name) = some v → exampleSemVer.Range v = false) ∧
    (∃ e, SemVer.Latest exampleParseVersion exampleLess exampleSemVer
      [⟨str "b1.2.3", []⟩, ⟨str "1.2.0", []⟩] = .error e) ∧
    ([(⟨str "b1.2.3", []⟩ : Tag), ⟨str "1.2.0", []⟩] ≠ [] →
      SemVer.Latest exampleParseVersion exampleLess exampleSemVer
        [⟨str "b1.2.3", []⟩, ⟨str "1.2.0", []⟩] =
        .error (.new (str "no matching version"))) :=
  ⟨fun t ht v hv => by
      rcases List.mem_cons.mp ht with rfl | ht
      · rw [show exampleParseVersion (stripV (str "b1.2.3")) = none by decide] at hv
        cases hv
      · rw [List.mem_singleton.mp ht,
          show exampleParseVersion (stripV (str "1.2.0")) = some (1, 2, 0) by decide] at hv
        cases hv
        decide,
    SemVer.Latest_no_match exampleParseVersion exampleLess exampleSemVer
      [⟨str "b1.2.3", []⟩, ⟨str "1.2.0", []⟩] (fun t ht v hv => by
        rcases List.mem_cons.mp ht with rfl | ht
        · rw [show exampleParseVersion (stripV (str "b1.2.3")) = none by decide] at hv
          cases hv
        · rw [List.mem_singleton.mp ht,
            show exampleParseVersion (stripV (str "1.2.0")) = some (1, 2, 0) by decide] at hv
          cases hv
          decide)⟩

/-- Counterexample to C21: on two tags of the same name the slice that `Latest`
sorts holds the name twice. -/
theorem Alphabetical.sorted_repeats :
    Alphabetical.sorted { Order := AlphabeticalOrderAsc }
      [⟨str "a", str "1"⟩, ⟨str "a", str "2"⟩] = [str "a", str "a"] ∧
    ¬ (Alphabetical.sorted { Order := AlphabeticalOrderAsc }
      [⟨str "a", str "1"⟩, ⟨str "a", str "2"⟩]).Nodup := by
  decide

/-- C21, amended: in `Alphabetical.Latest` the map `tagsByName` is keyed by name:
its keys are pairwise distinct and are the names of the input tags.  The slice of
names that gets sorted is not deduplicated: it is a rearrangement of the names of
the input tags, with one entry per tag, so no name occurs twice in it exactly when
the names of the input tags are pairwise distinct. -/
theorem Alphabetical.sorted_names (p : Alphabetical) (versions : List Tag) :
    ((Alphabetical.tagsByName versions).map Prod.fst).Nodup ∧
    (∀ k, k ∈ (Alphabetical.tagsByName versions).map Prod.fst ↔
      k ∈ versions.map (fun t => t.Name)) ∧
    (Alphabetical.sorted p versions).Perm (versions.map (fun t => t.Name)) ∧
    (Alphabetical.sorted p versions).length = versions.length ∧
    ((Alphabetical.sorted p versions).Nodup ↔ (versions.map (fun t => t.Name)).Nodup) := by
  have hperm := Alphabetical.sorted_perm p versions
  refine ⟨Alphabetical.tagsByName_nodup versions,
    Alphabetical.mem_tagsByName_keys versions, hperm, ?_, hperm.nodup_iff⟩
  rw [hperm.length_eq, List.length_map]

/-- C22: `Alphabetical.Latest` is total on non-empty input: for every non-empty tag
list and every value of `Order` the first element of the sorted names exists, the
map `tagsByName` has an entry under it, and `Latest` returns that entry and no
error.  `Latest` returns an error exactly when the input is empty, and it never
panics. -/
theorem Alphabetical.Latest_total (p : Alphabetical) (versions : List Tag) :
    (versions ≠ [] → ∃ first rest r, Alphabetical.sorted p versions = first :: rest ∧
      GoMap.lookup (Alphabetical.tagsByName versions) first = some r ∧
      Alphabetical.Latest p versions = .ok r) ∧
    ((∃ e, Alphabetical.Latest p versions = .error e) ↔ versions = []) ∧
    Alphabetical.Latest p versions ≠ .panic := by
  by_cases h : versions = []
  · subst h
    refine ⟨fun hne => absurd rfl hne, ⟨fun _ => rfl, fun _ => ⟨_, rfl⟩⟩, ?_⟩
    intro hp
    cases hp
  · obtain ⟨first, rest, r, h1, h2, h3, _⟩ := Alphabetical.Latest_spec p versions h
    refine ⟨fun _ => ⟨first, rest, r, h1, h2, h3⟩, ⟨fun ⟨e, he⟩ => ?_, fun he => absurd he h⟩, ?_⟩
    · rw [h3] at he
      cases he
    · rw [h3]
      intro hp
      cases hp

/-- Witness of C22: an order that is neither `ASC` nor `DESC`, and tags with a
repeated name. -/
theorem Alphabetical.Latest_total_witness :
    [(⟨str "a", str "1"⟩ : Tag), ⟨str "b", str "2"⟩, ⟨str "a", str "3"⟩] ≠ [] ∧
    ∃ first rest r, Alphabetical.sorted { Order := str "sideways" }
        [⟨str "a", str "1"⟩, ⟨str "b", str "2"⟩, ⟨str "a", str "3"⟩] = first :: rest ∧
      GoMap.lookup (Alphabetical.tagsByName
        [⟨str "a", str "1"⟩, ⟨str "b", str "2"⟩, ⟨str "a", str "3"⟩]) first = some r ∧
      Alphabetical.Latest { Order := str "sideways" }
        [⟨str "a", str "1"⟩, ⟨str "b", str "2"⟩, ⟨str "a", str "3"⟩] = .ok r :=
  ⟨by decide,
    (Alphabetical.Latest_total { Order := str "sideways" }
      [⟨str "a", str "1"⟩, ⟨str "b", str "2"⟩, ⟨str "a", str "3"⟩]).1 (by decide)⟩

/-- C23: when several input tags carry the selected name (the greatest for
ascending, the least for descending), `Alphabetical.Latest` returns the last of
them in the input list, with its digest: if `u` carries the selected name and no
tag after `u` carries it, the result is `u`. -/
theorem Alphabetical.Latest_last_of_name (front back : List Tag) (u : Tag)
    (hback : ∀ v ∈ back, v.Name ≠ u.Name) :
    ((∀ t ∈ front ++ u :: back, t.Name ≤ u.Name) →
      Alphabetical.Latest { Order := AlphabeticalOrderAsc } (front ++ u :: back) = .ok u) ∧
    ((∀ t ∈ front ++ u :: back, u.Name ≤ t.Name) →
      Alphabetical.Latest { Order := AlphabeticalOrderDesc } (front ++ u :: back) = .ok u) := by
  have hne : front ++ u :: back ≠ [] := by simp
  have hu : u ∈ front ++ u :: back := by simp
  have hlast : findLast (fun t => decide (t.Name = u.Name)) (front ++ u :: back) = some u :=
    findLast_append_cons front back u (by simp) (fun v hv => by simpa using hback v hv)
  constructor
  · intro hmax
    obtain ⟨first, _, r, _, _, hr, hmem, hname, hfind, hext⟩ :=
      Alphabetical.Latest_spec { Order := AlphabeticalOrderAsc } (front ++ u :: back) hne
    rw [if_neg (by decide)] at hext
    have hn : r.Name = u.Name := le_antisymm (hmax r hmem) (hext u hu)
    rw [← hname, hn, hlast] at hfind
    rw [hr, Option.some.inj hfind]
  · intro hmin
    obtain ⟨first, _, r, _, _, hr, hmem, hname, hfind, hext⟩ :=
      Alphabetical.Latest_spec { Order := AlphabeticalOrderDesc } (front ++ u :: back) hne
    rw [if_pos rfl] at hext
    have hn : r.Name = u.Name := le_antisymm (hext u hu) (hmin r hmem)
    rw [← hname, hn, hlast] at hfind
    rw [hr, Option.some.inj hfind]

/-- Witness of C23: two tags named `b` with different digests; ascending, the
second one is returned. -/
theorem Alphabetical.Latest_last_of_name_witness :
    (∀ v ∈ [(⟨str "a", str "y"⟩ : Tag)], v.Name ≠ (⟨str "b", str "2"⟩ : Tag).Name) ∧
    (∀ t ∈ [(⟨str "b", str "1"⟩ : Tag), ⟨str "a", str "x"⟩] ++
        ⟨str "b", str "2"⟩ :: [⟨str "a", str "y"⟩],
      t.Name ≤ (⟨str "b", str "2"⟩ : Tag).Name) ∧
    Alphabetical.Latest { Order := AlphabeticalOrderAsc }
      ([⟨str "b", str "1"⟩, ⟨str "a", str "x"⟩] ++ ⟨str "b", str "2"⟩ ::
        [⟨str "a", str "y"⟩]) = .ok ⟨str "b", str "2"⟩ :=
  ⟨by decide, by decide,
    (Alphabetical.Latest_last_of_name [⟨str "b", str "1"⟩, ⟨str "a", str "x"⟩]
      [⟨str "a", str "y"⟩] ⟨str "b", str "2"⟩ (by decide)).1 (by decide)⟩

/-- C24: on tag lists with pairwise distinct names `Alphabetical.Latest` does not
depend on the order of its input: for every such list, every rearrangement of it and
every order, `Latest` returns the same result.  In particular it returns the same
result on any two slices that `Items()` can return after an `Apply`. -/
theorem Alphabetical.Latest_perm (p : Alphabetical) (l l' : List Tag)
    (hnd : (l.map (fun t => t.Name)).Nodup) (hperm : l'.Perm l) :
    Alphabetical.Latest p l' = Alphabetical.Latest p l ∧
    ∀ (f : RegexFilter) (tags items items' : List Tag),
      RegexFilter.ItemsIn (RegexFilter.Apply f tags) items →
      RegexFilter.ItemsIn (RegexFilter.Apply f tags) items' →
      Alphabetical.Latest p items = Alphabetical.Latest p items' := by
  refine ⟨Alphabetical.Latest_perm_of_nodup p l l' hnd hperm, ?_⟩
  intro f tags items items' h h'
  rw [Alphabetical.Latest_perm_of_nodup p _ items (RegexFilter.Items_names_nodup f tags) h,
    Alphabetical.Latest_perm_of_nodup p _ items' (RegexFilter.Items_names_nodup f tags) h']

/-- Witness of C24: the Ubuntu code names of `TestAlphabetical_Latest` in two
orders. -/
theorem Alphabetical.Latest_perm_witness :
    ([(⟨str "xenial", str "1"⟩ : Tag), ⟨str "zesty", str "dig"⟩,
      ⟨str "artful", str "2"⟩].map (fun t => t.Name)).Nodup ∧
    [(⟨str "artful", str "2"⟩ : Tag), ⟨str "xenial", str "1"⟩, ⟨str "zesty", str "dig"⟩].Perm
      [⟨str "xenial", str "1"⟩, ⟨str "zesty", str "dig"⟩, ⟨str "artful", str "2"⟩] ∧
    Alphabetical.Latest { Order := AlphabeticalOrderDesc }
      [⟨str "artful", str "2"⟩, ⟨str "xenial", str "1"⟩, ⟨str "zesty", str "dig"⟩] =
    Alphabetical.Latest { Order := AlphabeticalOrderDesc }
      [⟨str "xenial", str "1"⟩, ⟨str "zesty", str "dig"⟩, ⟨str "artful", str "2"⟩] :=
  ⟨by decide, by decide,
    (Alphabetical.Latest_perm { Order := AlphabeticalOrderDesc }
      [⟨str "xenial", str "1"⟩, ⟨str "zesty", str "dig"⟩, ⟨str "artful", str "2"⟩]
      [⟨str "artful", str "2"⟩, ⟨str "xenial", str "1"⟩, ⟨str "zesty", str "dig"⟩]
      (by decide) (by decide)).1⟩

/-- C25: after `Apply(tags)`, in every slice that `Items()` can return the names are
pairwise distinct, and the length of the slice is the number of distinct output
names of the matching input tags; so it is at most the number of matching input
tags, with equality exactly when no two matching input tags give the same output
name. -/
theorem RegexFilter.Items_length (f : RegexFilter) (tags items : List Tag)
    (hitems : RegexFilter.ItemsIn (RegexFilter.Apply f tags) items) :
    (items.map (fun t => t.Name)).Nodup ∧
    items.length = (RegexFilter.outputNames f tags).dedup.length ∧
    items.length ≤ (tags.filter (fun u => RegexFilter.isMatch f u.Name)).length ∧
    (items.length = (tags.filter (fun u => RegexFilter.isMatch f u.Name)).length ↔
      (RegexFilter.outputNames f tags).Nodup) := by
  have hnames : (items.map (fun t => t.Name)).Perm (RegexFilter.outputNames f tags).dedup :=
    (hitems.map _).trans (RegexFilter.Items_names_perm f tags)
  have hlen : items.length = (RegexFilter.outputNames f tags).dedup.length := by
    rw [← hnames.length_eq, List.length_map]
  have hout : (RegexFilter.outputNames f tags).length =
      (tags.filter (fun u => RegexFilter.isMatch f u.Name)).length := by
    unfold RegexFilter.outputNames
    rw [List.length_map]
  have hsub := List.dedup_sublist (RegexFilter.outputNames f tags)
  refine ⟨hnames.nodup_iff.mpr (List.nodup_dedup _), hlen, ?_, ?_⟩
  · rw [hlen, ← hout]
    exact hsub.length_le
  · rw [hlen, ← hout]
    constructor
    · intro h
      exact List.dedup_eq_self.mp (hsub.eq_of_length h)
    · intro h
      rw [List.dedup_eq_self.mpr h]

/-- Witness of C25: with the pattern `ver(\d+)` and the template `$1` the tags
`ver1` and `xver1` give the same name, and three matching tags give two items. -/
theorem RegexFilter.Items_length_witness :
    RegexFilter.ItemsIn (RegexFilter.Apply exampleFilter
      [⟨str "ver1", str "foo"⟩, ⟨str "xver1", str "baz"⟩, ⟨str "ver2", str "bar"⟩,
        ⟨str "rel1", str "qux"⟩])
      [⟨str "1", str "baz"⟩, ⟨str "2", str "bar"⟩] ∧
    ([(⟨str "1", str "baz"⟩ : Tag), ⟨str "2", str "bar"⟩].map (fun t => t.Name)).Nodup ∧
    [(⟨str "1", str "baz"⟩ : Tag), ⟨str "2", str "bar"⟩].length =
      (RegexFilter.outputNames exampleFilter
        [⟨str "ver1", str "foo"⟩, ⟨str "xver1", str "baz"⟩, ⟨str "ver2", str "bar"⟩,
          ⟨str "rel1", str "qux"⟩]).dedup.length ∧
    [(⟨str "1", str "baz"⟩ : Tag), ⟨str "2", str "bar"⟩].length ≤
      ([(⟨str "ver1", str "foo"⟩ : Tag), ⟨str "xver1", str "baz"⟩, ⟨str "ver2", str "bar"⟩,
        ⟨str "rel1", str "qux"⟩].filter
          (fun u => RegexFilter.isMatch exampleFilter u.Name)).length ∧
    ([(⟨str "1", str "baz"⟩ : Tag), ⟨str "2", str "bar"⟩].length =
      ([(⟨str "ver1", str "foo"⟩ : Tag), ⟨str "xver1", str "baz"⟩, ⟨str "ver2", str "bar"⟩,
        ⟨str "rel1", str "qux"⟩].filter
          (fun u => RegexFilter.isMatch exampleFilter u.Name)).length ↔
      (RegexFilter.outputNames exampleFilter
        [⟨str "ver1", str "foo"⟩, ⟨str "xver1", str "baz"⟩, ⟨str "ver2", str "bar"⟩,
          ⟨str "rel1", str "qux"⟩]).Nodup) :=
  ⟨by unfold RegexFilter.ItemsIn; decide,
    RegexFilter.Items_length exampleFilter
      [⟨str "ver1", str "foo"⟩, ⟨str "xver1", str "baz"⟩, ⟨str "ver2", str "bar"⟩,
        ⟨str "rel1", str "qux"⟩]
      [⟨str "1", str "baz"⟩, ⟨str "2", str "bar"⟩]
      (by unfold RegexFilter.ItemsIn; decide)⟩


end ImageReflector
